import Mathlib

/-!
Verification of the bnbt NBT codec (Blocktopograph/bnbt).

This file shallow-embeds the Rust sources (`src/tag.rs`, `src/value.rs`,
`src/error.rs`, `src/codec/mod.rs`) into Lean and proves the testable
properties of the specification against that embedding.

Modelling conventions:
* Machine integers are embedded as `Int` (signed) or `Nat` (unsigned) with
  explicit two's-complement casts (`toUnsigned` / `toSigned`, i.e. `as uN`
  and `from_le_bytes`/`from_be_bytes` reassembly) — overflow is `% 2^w`.
* `f32` / `f64` payloads are embedded by their IEEE-754 *bit patterns*
  (a `Nat` below `2^32` / `2^64`): the codec only moves the raw bytes of a
  float, never computes with them, so the bit pattern is the whole story.
* Rust `String` / `Cow<str>` values are embedded as their UTF-8 byte lists
  (`List Nat`); `String::from_utf8` validation is `isValidUtf8`.
* The byte channel is a `List Nat` of bytes.  Readers take the input list
  and return the parsed value together with the remaining suffix; a short
  read is the `ioError` failure (an in-memory channel surfaces
  `UnexpectedEof` as a generic `std::io::Error`, which `NBTError::io`
  wraps).  Writers return the produced bytes; fallible writers return
  `Except`, and a failure produces no bytes (the pure model of the
  validate-before-write behaviour of the source).
* `BTreeMap<Cow<str>, Value>` is embedded as a strictly sorted (by
  byte-lexicographic key order, Rust's `Ord` for `str`) association list;
  `BTreeMap::insert` is `mapInsert`, which replaces an existing binding.
-/

namespace BNBT

/-! ## Two's-complement casts and byte (dis)assembly -/

/-- `v as uN` for an `N = 8*w`-bit cast: the two's-complement bit pattern. -/
def toUnsigned (w : Nat) (v : Int) : Nat := (v % ((2 : Int) ^ (8 * w))).toNat

/-- Reinterpret an `8*w`-bit pattern as a signed integer. -/
def toSigned (w : Nat) (n : Nat) : Int :=
  if n < 2 ^ (8 * w - 1) then (n : Int) else (n : Int) - 2 ^ (8 * w)

/-- `v as u8` (used by `read_list` / `read_compound` on the tag byte). -/
def intCastU8 (v : Int) : Nat := toUnsigned 1 v

/-- `v as usize` on a 64-bit host (used by `NBTError::invalid_string_length`). -/
def intCastUsize (v : Int) : Nat := toUnsigned 8 v

/-- Big-endian byte string (most significant first) of `n % 2^(8*w)`, `w` bytes. -/
def beNatBytes : Nat → Nat → List Nat
  | 0, _ => []
  | w + 1, n => beNatBytes w (n / 256) ++ [n % 256]

/-- Reassemble a big-endian byte string into a natural number. -/
def beBytesToNat (l : List Nat) : Nat := l.foldl (fun acc b => acc * 256 + b) 0

/-- The two byte orders of the codec (`Endian::Big` / `Endian::Little`). -/
inductive Endian where
  | big
  | little
deriving DecidableEq, Repr

/-- `to_be_bytes` / `to_le_bytes` of a `w`-byte value, by byte order. -/
def natToBytes (w : Nat) (e : Endian) (n : Nat) : List Nat :=
  match e with
  | .big => beNatBytes w n
  | .little => (beNatBytes w n).reverse

/-- `from_be_bytes` / `from_le_bytes`, by byte order. -/
def bytesToNat (e : Endian) (l : List Nat) : Nat :=
  match e with
  | .big => beBytesToNat l
  | .little => beBytesToNat l.reverse

theorem beNatBytes_length (w n : Nat) : (beNatBytes w n).length = w := by
  induction w generalizing n with
  | zero => rfl
  | succ w ih => simp [beNatBytes, ih]

theorem natToBytes_length (w : Nat) (e : Endian) (n : Nat) :
    (natToBytes w e n).length = w := by
  cases e <;> simp [natToBytes, beNatBytes_length]

theorem beBytesToNat_append_singleton (l : List Nat) (b : Nat) :
    beBytesToNat (l ++ [b]) = beBytesToNat l * 256 + b := by
  simp [beBytesToNat]

theorem beBytesToNat_beNatBytes (w n : Nat) :
    beBytesToNat (beNatBytes w n) = n % 2 ^ (8 * w) := by
  induction w generalizing n with
  | zero => simp [beNatBytes, beBytesToNat, Nat.mod_one]
  | succ w ih =>
    rw [beNatBytes, beBytesToNat_append_singleton, ih]
    have h256 : (2 : Nat) ^ (8 * (w + 1)) = 256 * 2 ^ (8 * w) := by
      rw [Nat.mul_succ, Nat.pow_add]; ring
    rw [h256, Nat.mod_mul]
    ring

theorem bytesToNat_natToBytes (w : Nat) (e : Endian) (n : Nat) :
    bytesToNat e (natToBytes w e n) = n % 2 ^ (8 * w) := by
  cases e <;> simp [bytesToNat, natToBytes, List.reverse_reverse,
    beBytesToNat_beNatBytes]

theorem pow_cast_int (k : Nat) : ((2 ^ k : Nat) : Int) = (2 : Int) ^ k := by
  push_cast
  ring

theorem toUnsigned_lt (w : Nat) (v : Int) : toUnsigned w v < 2 ^ (8 * w) := by
  unfold toUnsigned
  have hpos : (0 : Int) < (2 : Int) ^ (8 * w) := by positivity
  have hlt := Int.emod_lt_of_pos v hpos
  have hnn := Int.emod_nonneg v (ne_of_gt hpos)
  have hcast := pow_cast_int (8 * w)
  omega

theorem toSigned_toUnsigned (w : Nat) (v : Int) (hw : 1 ≤ w)
    (h1 : -(2 ^ (8 * w - 1)) ≤ v) (h2 : v < 2 ^ (8 * w - 1)) :
    toSigned w (toUnsigned w v) = v := by
  have hsplit : (2 : Int) ^ (8 * w) = 2 ^ (8 * w - 1) * 2 := by
    rw [← pow_succ]
    congr 1
    omega
  have hc1 := pow_cast_int (8 * w)
  have hc2 := pow_cast_int (8 * w - 1)
  unfold toSigned toUnsigned
  rcases le_or_lt 0 v with hv | hv
  · have hmod : v % (2 : Int) ^ (8 * w) = v := Int.emod_eq_of_lt hv (by omega)
    rw [hmod]
    have hlt' : v.toNat < 2 ^ (8 * w - 1) := by omega
    rw [if_pos hlt']
    omega
  · have hmod0 : (v + (2 : Int) ^ (8 * w)) % (2 : Int) ^ (8 * w)
        = v % (2 : Int) ^ (8 * w) := by
      have h := Int.add_mul_emod_self_left (a := v) (b := (2 : Int) ^ (8 * w)) (c := 1)
      simp only [mul_one] at h
      exact h
    have hmod : v % (2 : Int) ^ (8 * w) = v + 2 ^ (8 * w) := by
      rw [← hmod0]
      exact Int.emod_eq_of_lt (by omega) (by omega)
    rw [hmod]
    have hge : ¬ ((v + (2 : Int) ^ (8 * w)).toNat < 2 ^ (8 * w - 1)) := by omega
    rw [if_neg hge]
    omega

theorem toUnsigned_of_nonneg (w : Nat) (v : Int) (h0 : 0 ≤ v)
    (h2 : v < 2 ^ (8 * w)) : (toUnsigned w v : Int) = v := by
  unfold toUnsigned
  rw [Int.emod_eq_of_lt h0 (by exact_mod_cast h2), Int.toNat_of_nonneg h0]

/-! ## Error taxonomy (`src/error.rs`)

`NBTError` is embedded by its `NBTErrorKind`; the `source` box and the
captured backtrace carry no decodable semantic content. -/

/-- The failure kinds of `NBTErrorKind` (`src/error.rs`). -/
inductive NBTError where
  | ioError
  | unexpectedEOF
  | fromUTF8
  | invalidTagID (id : Nat)
  | invalidStringLength (len : Nat)
  | invalidFormat
  | custom (msg : String)
deriving DecidableEq, Repr

/-! ## Tag identifier (`src/tag.rs`) -/

/-- The 13 wire type codes, discriminants 0..12 in declaration order. -/
inductive Tag where
  | end_
  | byte
  | short
  | int
  | long
  | float
  | double
  | byteArray
  | string
  | list
  | compound
  | intArray
  | longArray
deriving DecidableEq, Repr

/-- The `repr(u8)` discriminant of a `Tag` (Rust `tag as u8`). -/
def Tag.toU8 : Tag → Nat
  | .end_ => 0
  | .byte => 1
  | .short => 2
  | .int => 3
  | .long => 4
  | .float => 5
  | .double => 6
  | .byteArray => 7
  | .string => 8
  | .list => 9
  | .compound => 10
  | .intArray => 11
  | .longArray => 12

/-- `Tag::try_from(u8)` (`src/tag.rs` lines 19-40). -/
def Tag.tryFrom (value : Nat) : Except NBTError Tag :=
  match value with
  | 0 => .ok .end_
  | 1 => .ok .byte
  | 2 => .ok .short
  | 3 => .ok .int
  | 4 => .ok .long
  | 5 => .ok .float
  | 6 => .ok .double
  | 7 => .ok .byteArray
  | 8 => .ok .string
  | 9 => .ok .list
  | 10 => .ok .compound
  | 11 => .ok .intArray
  | 12 => .ok .longArray
  | id => .error (.invalidTagID id)

/-- The `Debug` rendering of a `Tag` variant (Rust derive(Debug)). -/
def Tag.debugName : Tag → String
  | .end_ => "End"
  | .byte => "Byte"
  | .short => "Short"
  | .int => "Int"
  | .long => "Long"
  | .float => "Float"
  | .double => "Double"
  | .byteArray => "ByteArray"
  | .string => "String"
  | .list => "List"
  | .compound => "Compound"
  | .intArray => "IntArray"
  | .longArray => "LongArray"

theorem Tag.tryFrom_toU8 (t : Tag) : Tag.tryFrom t.toU8 = .ok t := by
  cases t <;> rfl

theorem Tag.toU8_le (t : Tag) : t.toU8 ≤ 12 := by
  cases t <;> simp [Tag.toU8]

/-! ## Value model (`src/value.rs`) -/

/-- `Value<'a>` (`src/value.rs`): the recursive tagged-variant tree.

Scalars are `Int` in their two's-complement range; `Float`/`Double` are
IEEE-754 bit patterns; strings are UTF-8 byte lists; `Compound` is the
`BTreeMap` embedded as a strictly key-sorted association list. -/
inductive Value where
  | end_ : Value
  | byte : Int → Value
  | short : Int → Value
  | int : Int → Value
  | long : Int → Value
  | float : Nat → Value
  | double : Nat → Value
  | byteArray : List Int → Value
  | string : List Nat → Value
  | list : List Value → Value
  | compound : List (List Nat × Value) → Value
  | intArray : List Int → Value
  | longArray : List Int → Value
deriving Repr

/-- `Value::tag` (`src/value.rs` lines 26-42). -/
def Value.tag : Value → Tag
  | .end_ => .end_
  | .byte _ => .byte
  | .short _ => .short
  | .int _ => .int
  | .long _ => .long
  | .float _ => .float
  | .double _ => .double
  | .byteArray _ => .byteArray
  | .string _ => .string
  | .list _ => .list
  | .compound _ => .compound
  | .intArray _ => .intArray
  | .longArray _ => .longArray

/-- A canonical value of each kind (builders such as `Value::compound`,
`Value::list`, and the `From` impls produce these shapes). -/
def mkValue : Tag → Value
  | .end_ => .end_
  | .byte => .byte 0
  | .short => .short 0
  | .int => .int 0
  | .long => .long 0
  | .float => .float 0
  | .double => .double 0
  | .byteArray => .byteArray []
  | .string => .string []
  | .list => .list []
  | .compound => .compound []
  | .intArray => .intArray []
  | .longArray => .longArray []

theorem mkValue_tag (t : Tag) : (mkValue t).tag = t := by
  cases t <;> rfl

/-! ## The `BTreeMap` model -/

/-- Byte-lexicographic order on keys: Rust's `Ord` for `str` compares the
underlying UTF-8 bytes lexicographically. -/
def keyLt : List Nat → List Nat → Bool
  | [], [] => false
  | [], _ :: _ => true
  | _ :: _, [] => false
  | x :: xs, y :: ys => if x < y then true else if x = y then keyLt xs ys else false

/-- `BTreeMap::insert` on the sorted-association-list model: replaces the
binding of an existing key, otherwise inserts at the ordered position. -/
def mapInsert (k : List Nat) (v : Value) : List (List Nat × Value) → List (List Nat × Value)
  | [] => [(k, v)]
  | (k2, v2) :: rest =>
    if keyLt k k2 then (k, v) :: (k2, v2) :: rest
    else if k = k2 then (k, v) :: rest
    else (k2, v2) :: mapInsert k v rest

/-- `Value::insert` (`src/value.rs` lines 48-60); the mutation is modelled
by returning the updated value. -/
def Value.insert (self : Value) (k : List Nat) (v : Value) : Except NBTError Value :=
  match self with
  | .compound m => .ok (.compound (mapInsert k v m))
  | _ => .error (.custom "Not a compound")

/-! ## UTF-8 validation (`String::from_utf8`)

The RFC 3629 byte-level well-formedness check performed by Rust's
`String::from_utf8`. -/

/-- A UTF-8 continuation byte, `0x80..=0xBF`. -/
def isUtf8Cont (b : Nat) : Bool := 0x80 ≤ b && b ≤ 0xBF

/-- Byte-level UTF-8 well-formedness (RFC 3629). -/
def isValidUtf8 : List Nat → Bool
  | [] => true
  | b :: rest =>
    if b ≤ 0x7F then isValidUtf8 rest
    else if 0xC2 ≤ b && b ≤ 0xDF then
      match rest with
      | c1 :: rest2 => isUtf8Cont c1 && isValidUtf8 rest2
      | [] => false
    else if b = 0xE0 then
      match rest with
      | c1 :: c2 :: rest2 =>
        (0xA0 ≤ c1 && c1 ≤ 0xBF) && isUtf8Cont c2 && isValidUtf8 rest2
      | _ => false
    else if (0xE1 ≤ b && b ≤ 0xEC) || (0xEE ≤ b && b ≤ 0xEF) then
      match rest with
      | c1 :: c2 :: rest2 => isUtf8Cont c1 && isUtf8Cont c2 && isValidUtf8 rest2
      | _ => false
    else if b = 0xED then
      match rest with
      | c1 :: c2 :: rest2 =>
        (0x80 ≤ c1 && c1 ≤ 0x9F) && isUtf8Cont c2 && isValidUtf8 rest2
      | _ => false
    else if b = 0xF0 then
      match rest with
      | c1 :: c2 :: c3 :: rest2 =>
        (0x90 ≤ c1 && c1 ≤ 0xBF) && isUtf8Cont c2 && isUtf8Cont c3 && isValidUtf8 rest2
      | _ => false
    else if 0xF1 ≤ b && b ≤ 0xF3 then
      match rest with
      | c1 :: c2 :: c3 :: rest2 =>
        isUtf8Cont c1 && isUtf8Cont c2 && isUtf8Cont c3 && isValidUtf8 rest2
      | _ => false
    else if b = 0xF4 then
      match rest with
      | c1 :: c2 :: c3 :: rest2 =>
        (0x80 ≤ c1 && c1 ≤ 0x8F) && isUtf8Cont c2 && isUtf8Cont c3 && isValidUtf8 rest2
      | _ => false
    else false

/-! ## Primitive scalar codecs (`src/codec/mod.rs` macro `gen_nbt_codec_impl`)

Each fixed-width reader does `read_exact` into a `size_of` buffer and
reassembles it in the configured byte order; each writer emits
`to_be_bytes`/`to_le_bytes`. -/

/-- `Read::read_exact` against the in-memory channel: take exactly `n`
bytes or fail with the I/O error a short read surfaces as. -/
def readExact (n : Nat) (b : List Nat) : Except NBTError (List Nat × List Nat) :=
  if n ≤ b.length then .ok (b.take n, b.drop n) else .error .ioError

/-- Fixed-width unsigned read (`read_u8` / `read_u16` / `read_u32` / `read_u64`,
and the bit patterns of `read_f32` / `read_f64`). -/
def readUnsigned (w : Nat) (e : Endian) (b : List Nat) : Except NBTError (Nat × List Nat) :=
  match readExact w b with
  | .error err => .error err
  | .ok (buf, rest) => .ok (bytesToNat e buf, rest)

/-- Fixed-width signed read (`read_i8` / `read_i16` / `read_i32` / `read_i64`). -/
def readSigned (w : Nat) (e : Endian) (b : List Nat) : Except NBTError (Int × List Nat) :=
  match readExact w b with
  | .error err => .error err
  | .ok (buf, rest) => .ok (toSigned w (bytesToNat e buf), rest)

def read_u8 (e : Endian) (b : List Nat) : Except NBTError (Nat × List Nat) := readUnsigned 1 e b

def read_u16 (e : Endian) (b : List Nat) : Except NBTError (Nat × List Nat) := readUnsigned 2 e b

def read_u32 (e : Endian) (b : List Nat) : Except NBTError (Nat × List Nat) := readUnsigned 4 e b

def read_u64 (e : Endian) (b : List Nat) : Except NBTError (Nat × List Nat) := readUnsigned 8 e b

def read_i8 (e : Endian) (b : List Nat) : Except NBTError (Int × List Nat) := readSigned 1 e b

def read_i16 (e : Endian) (b : List Nat) : Except NBTError (Int × List Nat) := readSigned 2 e b

def read_i32 (e : Endian) (b : List Nat) : Except NBTError (Int × List Nat) := readSigned 4 e b

def read_i64 (e : Endian) (b : List Nat) : Except NBTError (Int × List Nat) := readSigned 8 e b

/-- `read_f32`: the codec only reassembles the 4 raw bytes, so the result is
the IEEE-754 bit pattern. -/
def read_f32 (e : Endian) (b : List Nat) : Except NBTError (Nat × List Nat) := readUnsigned 4 e b

/-- `read_f64`, as the IEEE-754 bit pattern. -/
def read_f64 (e : Endian) (b : List Nat) : Except NBTError (Nat × List Nat) := readUnsigned 8 e b

def write_u8 (e : Endian) (v : Nat) : List Nat := natToBytes 1 e v

def write_u16 (e : Endian) (v : Nat) : List Nat := natToBytes 2 e v

def write_u32 (e : Endian) (v : Nat) : List Nat := natToBytes 4 e v

def write_i8 (e : Endian) (v : Int) : List Nat := natToBytes 1 e (toUnsigned 1 v)

def write_i16 (e : Endian) (v : Int) : List Nat := natToBytes 2 e (toUnsigned 2 v)

def write_i32 (e : Endian) (v : Int) : List Nat := natToBytes 4 e (toUnsigned 4 v)

def write_i64 (e : Endian) (v : Int) : List Nat := natToBytes 8 e (toUnsigned 8 v)

/-- `write_f32` of an IEEE-754 bit pattern. -/
def write_f32 (e : Endian) (bits : Nat) : List Nat := natToBytes 4 e bits

/-- `write_f64` of an IEEE-754 bit pattern. -/
def write_f64 (e : Endian) (bits : Nat) : List Nat := natToBytes 8 e bits

/-! ## String and array codecs (`src/codec/mod.rs` lines 196-209, 298-350) -/

/-- `read_string`: a `u16` length prefix, that many bytes, UTF-8 validated. -/
def read_string (e : Endian) (b : List Nat) : Except NBTError (List Nat × List Nat) :=
  match read_u16 e b with
  | .error err => .error err
  | .ok (length, b1) =>
    match readExact length b1 with
    | .error err => .error err
    | .ok (buf, b2) => if isValidUtf8 buf then .ok (buf, b2) else .error .fromUTF8

/-- `write_string`: `value.len() as u16` prefix, then all of the bytes. -/
def write_string (e : Endian) (s : List Nat) : List Nat :=
  write_u16 e s.length ++ s

/-- `read_byte_array`: `u32` size, then that many raw bytes, each `as i8`. -/
def read_byte_array (e : Endian) (b : List Nat) : Except NBTError (List Int × List Nat) :=
  match read_u32 e b with
  | .error err => .error err
  | .ok (size, b1) =>
    match readExact size b1 with
    | .error err => .error err
    | .ok (buf, b2) => .ok (buf.map (toSigned 1), b2)

/-- `write_byte_array`: `value.len() as u32` prefix, then each `i8` `as u8`. -/
def write_byte_array (e : Endian) (l : List Int) : List Nat :=
  write_u32 e l.length ++ l.map (toUnsigned 1)

/-- Read `n` fixed-width signed scalars in sequence (the `(0..size).map(...)`
loops of `read_int_array` / `read_long_array`). -/
def readScalars (w : Nat) (e : Endian) : Nat → List Nat → Except NBTError (List Int × List Nat)
  | 0, b => .ok ([], b)
  | n + 1, b =>
    match readSigned w e b with
    | .error err => .error err
    | .ok (v, b1) =>
      match readScalars w e n b1 with
      | .error err => .error err
      | .ok (vs, b2) => .ok (v :: vs, b2)

/-- `read_int_array`: `u32` size then that many `i32` scalars. -/
def read_int_array (e : Endian) (b : List Nat) : Except NBTError (List Int × List Nat) :=
  match read_u32 e b with
  | .error err => .error err
  | .ok (size, b1) => readScalars 4 e size b1

/-- `read_long_array`: `u32` size then that many `i64` scalars. -/
def read_long_array (e : Endian) (b : List Nat) : Except NBTError (List Int × List Nat) :=
  match read_u32 e b with
  | .error err => .error err
  | .ok (size, b1) => readScalars 8 e size b1

/-- `write_int_array`: `u32` length prefix then each `i32`; the source's
1024-element chunking emits the same bytes as the flat loop. -/
def write_int_array (e : Endian) (l : List Int) : List Nat :=
  write_u32 e l.length ++ (l.map (fun v => write_i32 e v)).flatten

/-- `write_long_array`: `u32` length prefix then each `i64`; the source's
512-element chunking emits the same bytes as the flat loop. -/
def write_long_array (e : Endian) (l : List Int) : List Nat :=
  write_u32 e l.length ++ (l.map (fun v => write_i64 e v)).flatten

/-! ## Composite writers (`src/codec/mod.rs` lines 140-158, 178-194, 228-296) -/

/-- The homogeneity scan of `write_list`: the first element (scanning from
index `i`) whose tag differs from `t`, with its tag. -/
def firstMismatch (t : Tag) : Nat → List Value → Option (Nat × Tag)
  | _, [] => none
  | i, x :: xs => if x.tag ≠ t then some (i, x.tag) else firstMismatch t (i + 1) xs

/-- The `format!` message of the list-homogeneity failure. -/
def mismatchMsg (i : Nat) (expected actual : Tag) : String :=
  "List type mismatch at index " ++ toString i ++ ": expected "
    ++ expected.debugName ++ ", got " ++ actual.debugName

mutual

/-- `write_value` (`src/codec/mod.rs` lines 178-194): the central dispatch. -/
def write_value (e : Endian) (v : Value) : Except NBTError (List Nat) :=
  match v with
  | .end_ => .ok []
  | .byte v => .ok (write_i8 e v)
  | .short v => .ok (write_i16 e v)
  | .int v => .ok (write_i32 e v)
  | .long v => .ok (write_i64 e v)
  | .float bits => .ok (write_f32 e bits)
  | .double bits => .ok (write_f64 e bits)
  | .byteArray l => .ok (write_byte_array e l)
  | .string s => .ok (write_string e s)
  | .intArray l => .ok (write_int_array e l)
  | .longArray l => .ok (write_long_array e l)
  | .list xs => write_list e (.list xs)
  | .compound es => write_compound e (.compound es)
termination_by (sizeOf v, 1)

/-- `write_list` (`src/codec/mod.rs` lines 228-259): validates homogeneity
before emitting the element-tag byte, the `len() as i32` count, and the
unframed element payloads. -/
def write_list (e : Endian) (v : Value) : Except NBTError (List Nat) :=
  match v with
  | .list [] => .ok (write_i8 e ((Tag.end_.toU8 : Int)) ++ write_i32 e 0)
  | .list (x :: rest) =>
    match firstMismatch x.tag 0 (x :: rest) with
    | some (i, actual) => .error (.custom (mismatchMsg i x.tag actual))
    | none =>
      match write_values e (x :: rest) with
      | .error err => .error err
      | .ok payload =>
        .ok (write_i8 e ((x.tag.toU8 : Int))
          ++ write_i32 e (((x :: rest).length : Nat) : Int) ++ payload)
  | _ => .error (.invalidTagID v.tag.toU8)
termination_by (sizeOf v, 0)

/-- The `for value in list { write_value }` loop of `write_list`. -/
def write_values (e : Endian) (l : List Value) : Except NBTError (List Nat) :=
  match l with
  | [] => .ok []
  | x :: xs =>
    match write_value e x with
    | .error err => .error err
    | .ok bs =>
      match write_values e xs with
      | .error err => .error err
      | .ok rest => .ok (bs ++ rest)
termination_by (sizeOf l, 0)

/-- `write_compound` (`src/codec/mod.rs` lines 281-296): each entry as
tag byte, name string, payload, then the terminating `End` byte. -/
def write_compound (e : Endian) (v : Value) : Except NBTError (List Nat) :=
  match v with
  | .compound es =>
    match write_entries e es with
    | .error err => .error err
    | .ok bs => .ok (bs ++ write_i8 e ((Tag.end_.toU8 : Int)))
  | _ => .error (.invalidTagID v.tag.toU8)
termination_by (sizeOf v, 0)

/-- The `for (name, val) in map` loop of `write_compound`. -/
def write_entries (e : Endian) (l : List (List Nat × Value)) : Except NBTError (List Nat) :=
  match l with
  | [] => .ok []
  | (k, v) :: es =>
    match write_value e v with
    | .error err => .error err
    | .ok vb =>
      match write_entries e es with
      | .error err => .error err
      | .ok rest => .ok (write_i8 e ((v.tag.toU8 : Int)) ++ write_string e k ++ vb ++ rest)
termination_by (sizeOf l, 0)

end

/-- `write_tag` (`src/codec/mod.rs` lines 140-158): tag byte, name string
(`None` wrapped to the empty string), payload. -/
def write_tag (e : Endian) (name : Option (List Nat)) (v : Value) :
    Except NBTError (List Nat) :=
  let wrapedName := match name with
    | some n => n
    | none => []
  match write_value e v with
  | .error err => .error err
  | .ok vb => .ok (write_u8 e v.tag.toU8 ++ write_string e wrapedName ++ vb)


/-! ### Unfolding equations for the mutual writers -/

@[simp] theorem write_value_end (e : Endian) : write_value e .end_ = .ok [] := by
  simp [write_value]

@[simp] theorem write_value_byte (e : Endian) (v : Int) :
    write_value e (.byte v) = .ok (write_i8 e v) := by
  simp [write_value]

@[simp] theorem write_value_short (e : Endian) (v : Int) :
    write_value e (.short v) = .ok (write_i16 e v) := by
  simp [write_value]

@[simp] theorem write_value_int (e : Endian) (v : Int) :
    write_value e (.int v) = .ok (write_i32 e v) := by
  simp [write_value]

@[simp] theorem write_value_long (e : Endian) (v : Int) :
    write_value e (.long v) = .ok (write_i64 e v) := by
  simp [write_value]

@[simp] theorem write_value_float (e : Endian) (bits : Nat) :
    write_value e (.float bits) = .ok (write_f32 e bits) := by
  simp [write_value]

@[simp] theorem write_value_double (e : Endian) (bits : Nat) :
    write_value e (.double bits) = .ok (write_f64 e bits) := by
  simp [write_value]

@[simp] theorem write_value_byteArray (e : Endian) (l : List Int) :
    write_value e (.byteArray l) = .ok (write_byte_array e l) := by
  simp [write_value]

@[simp] theorem write_value_string (e : Endian) (s : List Nat) :
    write_value e (.string s) = .ok (write_string e s) := by
  simp [write_value]

@[simp] theorem write_value_intArray (e : Endian) (l : List Int) :
    write_value e (.intArray l) = .ok (write_int_array e l) := by
  simp [write_value]

@[simp] theorem write_value_longArray (e : Endian) (l : List Int) :
    write_value e (.longArray l) = .ok (write_long_array e l) := by
  simp [write_value]

@[simp] theorem write_value_list (e : Endian) (xs : List Value) :
    write_value e (.list xs) = write_list e (.list xs) := by
  simp [write_value]

@[simp] theorem write_value_compound (e : Endian) (es : List (List Nat × Value)) :
    write_value e (.compound es) = write_compound e (.compound es) := by
  simp [write_value]

@[simp] theorem write_values_nil (e : Endian) : write_values e [] = .ok [] := by
  simp [write_values]

theorem write_values_cons (e : Endian) (x : Value) (xs : List Value) :
    write_values e (x :: xs) =
      match write_value e x with
      | .error err => .error err
      | .ok bs =>
        match write_values e xs with
        | .error err => .error err
        | .ok rest => .ok (bs ++ rest) := by
  rw [write_values]

@[simp] theorem write_list_nil (e : Endian) :
    write_list e (.list []) = .ok (write_i8 e 0 ++ write_i32 e 0) := by
  rw [write_list]
  rfl

theorem write_list_cons (e : Endian) (x : Value) (rest : List Value) :
    write_list e (.list (x :: rest)) =
      match firstMismatch x.tag 0 (x :: rest) with
      | some (i, actual) => .error (.custom (mismatchMsg i x.tag actual))
      | none =>
        match write_values e (x :: rest) with
        | .error err => .error err
        | .ok payload =>
          .ok (write_i8 e ((x.tag.toU8 : Int))
            ++ write_i32 e (((x :: rest).length : Nat) : Int) ++ payload) := by
  rw [write_list]

theorem write_list_not_list (e : Endian) (v : Value) (h : v.tag ≠ .list) :
    write_list e v = .error (.invalidTagID v.tag.toU8) := by
  cases v
  case list xs => exact absurd rfl h
  all_goals rw [write_list.eq_def]

theorem write_compound_eq (e : Endian) (es : List (List Nat × Value)) :
    write_compound e (.compound es) =
      match write_entries e es with
      | .error err => .error err
      | .ok bs => .ok (bs ++ write_i8 e 0) := by
  rw [write_compound]
  cases hw : write_entries e es <;> simp [Tag.toU8]

theorem write_compound_not_compound (e : Endian) (v : Value) (h : v.tag ≠ .compound) :
    write_compound e v = .error (.invalidTagID v.tag.toU8) := by
  cases v
  case compound es => exact absurd rfl h
  all_goals rw [write_compound.eq_def]

@[simp] theorem write_entries_nil (e : Endian) : write_entries e [] = .ok [] := by
  simp [write_entries]

theorem write_entries_cons (e : Endian) (k : List Nat) (v : Value)
    (es : List (List Nat × Value)) :
    write_entries e ((k, v) :: es) =
      match write_value e v with
      | .error err => .error err
      | .ok vb =>
        match write_entries e es with
        | .error err => .error err
        | .ok rest => .ok (write_i8 e ((v.tag.toU8 : Int)) ++ write_string e k ++ vb ++ rest) := by
  rw [write_entries]


example : firstMismatch (Value.int 6969).tag 0 [Value.int 6969, Value.int 696969] = none := by decide

example : write_values .little [Value.int 6969, Value.int 696969] = .ok [0x39, 0x1B, 0, 0, 0x89, 0xA2, 0x0A, 0] := by
  rw [write_values_cons]
  rw [write_value_int]
  rw [write_values_cons]
  rw [write_value_int]
  rw [write_values_nil]
  rfl


/-! ## Consumption lemmas for the primitive readers -/

theorem readExact_length (n : Nat) (b buf rest : List Nat)
    (h : readExact n b = .ok (buf, rest)) :
    buf.length = n ∧ rest.length + n = b.length := by
  unfold readExact at h
  split at h
  · simp only [Except.ok.injEq, Prod.mk.injEq] at h
    obtain ⟨h1, h2⟩ := h
    subst h1
    subst h2
    refine ⟨by simp [List.length_take]; omega, by simp [List.length_drop]; omega⟩
  · exact absurd h (by simp)

theorem readUnsigned_length (w : Nat) (e : Endian) (b : List Nat) (v : Nat)
    (rest : List Nat) (h : readUnsigned w e b = .ok (v, rest)) :
    rest.length + w = b.length := by
  unfold readUnsigned at h
  cases hx : readExact w b with
  | error err => simp only [hx] at h; exact absurd h (by simp)
  | ok p =>
    obtain ⟨buf, r⟩ := p
    simp only [hx, Except.ok.injEq, Prod.mk.injEq] at h
    obtain ⟨h1, h2⟩ := h
    subst h2
    exact (readExact_length w b buf _ hx).2

theorem readSigned_length (w : Nat) (e : Endian) (b : List Nat) (v : Int)
    (rest : List Nat) (h : readSigned w e b = .ok (v, rest)) :
    rest.length + w = b.length := by
  unfold readSigned at h
  cases hx : readExact w b with
  | error err => simp only [hx] at h; exact absurd h (by simp)
  | ok p =>
    obtain ⟨buf, r⟩ := p
    simp only [hx, Except.ok.injEq, Prod.mk.injEq] at h
    obtain ⟨h1, h2⟩ := h
    subst h2
    exact (readExact_length w b buf _ hx).2

theorem read_string_length (e : Endian) (b : List Nat) (s rest : List Nat)
    (h : read_string e b = .ok (s, rest)) :
    rest.length + 2 ≤ b.length := by
  unfold read_string at h
  cases hx : read_u16 e b with
  | error err => simp only [hx] at h; exact absurd h (by simp)
  | ok p =>
    obtain ⟨length, b1⟩ := p
    have hb1 : b1.length + 2 = b.length := readUnsigned_length 2 e b length b1 hx
    simp only [hx] at h
    cases hy : readExact length b1 with
    | error err => simp only [hy] at h; exact absurd h (by simp)
    | ok q =>
      obtain ⟨buf, b2⟩ := q
      have hb2 := (readExact_length length b1 buf b2 hy).2
      simp only [hy] at h
      split at h
      · simp only [Except.ok.injEq, Prod.mk.injEq] at h
        obtain ⟨h1, h2⟩ := h
        subst h2
        omega
      · exact absurd h (by simp)

theorem read_byte_array_length (e : Endian) (b : List Nat) (l : List Int)
    (rest : List Nat) (h : read_byte_array e b = .ok (l, rest)) :
    rest.length ≤ b.length := by
  unfold read_byte_array at h
  cases hx : read_u32 e b with
  | error err => simp only [hx] at h; exact absurd h (by simp)
  | ok p =>
    obtain ⟨size, b1⟩ := p
    have hb1 : b1.length + 4 = b.length := readUnsigned_length 4 e b size b1 hx
    simp only [hx] at h
    cases hy : readExact size b1 with
    | error err => simp only [hy] at h; exact absurd h (by simp)
    | ok q =>
      obtain ⟨buf, b2⟩ := q
      have hb2 := (readExact_length size b1 buf b2 hy).2
      simp only [hy, Except.ok.injEq, Prod.mk.injEq] at h
      obtain ⟨h1, h2⟩ := h
      subst h2
      omega

theorem readScalars_length (w : Nat) (e : Endian) (n : Nat) :
    ∀ b l rest, readScalars w e n b = .ok (l, rest) → rest.length ≤ b.length := by
  induction n with
  | zero =>
    intro b l rest h
    unfold readScalars at h
    simp only [Except.ok.injEq, Prod.mk.injEq] at h
    obtain ⟨h1, h2⟩ := h
    subst h2
    exact le_refl _
  | succ n ih =>
    intro b l rest h
    unfold readScalars at h
    cases hx : readSigned w e b with
    | error err => simp only [hx] at h; exact absurd h (by simp)
    | ok p =>
      obtain ⟨v, b1⟩ := p
      have hb1 := readSigned_length w e b v b1 hx
      simp only [hx] at h
      cases hy : readScalars w e n b1 with
      | error err => simp only [hy] at h; exact absurd h (by simp)
      | ok q =>
        obtain ⟨vs, b2⟩ := q
        have hb2 := ih b1 vs b2 hy
        simp only [hy, Except.ok.injEq, Prod.mk.injEq] at h
        obtain ⟨h1, h2⟩ := h
        subst h2
        omega

theorem read_int_array_length (e : Endian) (b : List Nat) (l : List Int)
    (rest : List Nat) (h : read_int_array e b = .ok (l, rest)) :
    rest.length ≤ b.length := by
  unfold read_int_array at h
  cases hx : read_u32 e b with
  | error err => simp only [hx] at h; exact absurd h (by simp)
  | ok p =>
    obtain ⟨size, b1⟩ := p
    have hb1 : b1.length + 4 = b.length := readUnsigned_length 4 e b size b1 hx
    simp only [hx] at h
    have := readScalars_length 4 e size b1 l rest h
    omega

theorem read_long_array_length (e : Endian) (b : List Nat) (l : List Int)
    (rest : List Nat) (h : read_long_array e b = .ok (l, rest)) :
    rest.length ≤ b.length := by
  unfold read_long_array at h
  cases hx : read_u32 e b with
  | error err => simp only [hx] at h; exact absurd h (by simp)
  | ok p =>
    obtain ⟨size, b1⟩ := p
    have hb1 : b1.length + 4 = b.length := readUnsigned_length 4 e b size b1 hx
    simp only [hx] at h
    have := readScalars_length 8 e size b1 l rest h
    omega


/-! ## Composite readers (`src/codec/mod.rs` lines 124-138, 160-176, 211-226, 261-279)

The recursive readers are defined on suffix-bounded results (the remaining
input together with the proof that it is no longer than the input); thin
wrappers below restore the plain signatures.  The bound is exactly what a
`Read`er guarantees — it never "unreads" — and is what makes the mutual
recursion well-founded. -/

/-- `readSigned`, with the consumed-byte count recorded in the type. -/
def readSignedS (w : Nat) (e : Endian) (b : List Nat) :
    Except NBTError (Int × {r : List Nat // r.length + w = b.length}) :=
  match h : readSigned w e b with
  | .error err => .error err
  | .ok (v, r) => .ok (v, ⟨r, readSigned_length w e b v r h⟩)

/-- `read_string`, with the minimum consumption recorded in the type. -/
def read_stringS (e : Endian) (b : List Nat) :
    Except NBTError (List Nat × {r : List Nat // r.length + 2 ≤ b.length}) :=
  match h : read_string e b with
  | .error err => .error err
  | .ok (v, r) => .ok (v, ⟨r, read_string_length e b v r h⟩)

theorem lex_of_le_of_lt {a c : Nat} {p q : Nat} (h1 : a ≤ c) (h2 : p < q) :
    Prod.Lex (· < ·) (· < ·) (a, p) (c, q) := by
  rcases lt_or_eq_of_le h1 with h | h
  · exact Prod.Lex.left _ _ h
  · subst h
    exact Prod.Lex.right _ h2

mutual

/-- `read_value` (`src/codec/mod.rs` lines 160-176): the central dispatch. -/
def readValueAux (e : Endian) (t : Tag) (b : List Nat) :
    Except NBTError (Value × {r : List Nat // r.length ≤ b.length}) :=
  match t with
  | .end_ => .ok (.end_, ⟨b, le_refl _⟩)
  | .byte =>
    match readSignedS 1 e b with
    | .error err => .error err
    | .ok (v, r) => .ok (.byte v, ⟨r.val, by have := r.2; omega⟩)
  | .short =>
    match readSignedS 2 e b with
    | .error err => .error err
    | .ok (v, r) => .ok (.short v, ⟨r.val, by have := r.2; omega⟩)
  | .int =>
    match readSignedS 4 e b with
    | .error err => .error err
    | .ok (v, r) => .ok (.int v, ⟨r.val, by have := r.2; omega⟩)
  | .long =>
    match readSignedS 8 e b with
    | .error err => .error err
    | .ok (v, r) => .ok (.long v, ⟨r.val, by have := r.2; omega⟩)
  | .float =>
    match h : read_f32 e b with
    | .error err => .error err
    | .ok (v, r) => .ok (.float v, ⟨r, by have := readUnsigned_length 4 e b v r h; omega⟩)
  | .double =>
    match h : read_f64 e b with
    | .error err => .error err
    | .ok (v, r) => .ok (.double v, ⟨r, by have := readUnsigned_length 8 e b v r h; omega⟩)
  | .byteArray =>
    match h : read_byte_array e b with
    | .error err => .error err
    | .ok (v, r) => .ok (.byteArray v, ⟨r, read_byte_array_length e b v r h⟩)
  | .string =>
    match read_stringS e b with
    | .error err => .error err
    | .ok (v, r) => .ok (.string v, ⟨r.val, by have := r.2; omega⟩)
  | .list => readListAux e b
  | .compound => readCompoundAux e b
  | .intArray =>
    match h : read_int_array e b with
    | .error err => .error err
    | .ok (v, r) => .ok (.intArray v, ⟨r, read_int_array_length e b v r h⟩)
  | .longArray =>
    match h : read_long_array e b with
    | .error err => .error err
    | .ok (v, r) => .ok (.longArray v, ⟨r, read_long_array_length e b v r h⟩)
termination_by (b.length, 2)
decreasing_by
  · exact Prod.Lex.right _ (by omega)
  · exact Prod.Lex.right _ (by omega)

/-- `read_list` (`src/codec/mod.rs` lines 211-226): element-tag byte, `i32`
count checked against `0..=i16::MAX`, then the unframed elements. -/
def readListAux (e : Endian) (b : List Nat) :
    Except NBTError (Value × {r : List Nat // r.length ≤ b.length}) :=
  match readSignedS 1 e b with
  | .error err => .error err
  | .ok (etagId, b1) =>
    match Tag.tryFrom (intCastU8 etagId) with
    | .error err => .error err
    | .ok etag =>
      match readSignedS 4 e b1.val with
      | .error err => .error err
      | .ok (length, b2) =>
        if length < 0 ∨ length > 32767 then
          .error (.invalidStringLength (intCastUsize length))
        else
          match readListElemsAux e etag length.toNat b2.val with
          | .error err => .error err
          | .ok (xs, b3) =>
            .ok (.list xs, ⟨b3.val, by have := b1.2; have := b2.2; have := b3.2; omega⟩)
termination_by (b.length, 1)
decreasing_by
  exact Prod.Lex.left _ _ (by have := b1.2; have := b2.2; omega)

/-- The `for _ in 0..length { read_value }` loop of `read_list`. -/
def readListElemsAux (e : Endian) (t : Tag) (n : Nat) (b : List Nat) :
    Except NBTError (List Value × {r : List Nat // r.length ≤ b.length}) :=
  match n with
  | 0 => .ok ([], ⟨b, le_refl _⟩)
  | m + 1 =>
    match readValueAux e t b with
    | .error err => .error err
    | .ok (v, b1) =>
      match readListElemsAux e t m b1.val with
      | .error err => .error err
      | .ok (vs, b2) => .ok (v :: vs, ⟨b2.val, by have := b1.2; have := b2.2; omega⟩)
termination_by (b.length, n + 2)
decreasing_by
  all_goals simp_wf
  · exact Prod.Lex.right _ (by omega)
  · exact lex_of_le_of_lt b1.2 (by omega)

/-- `read_compound` (`src/codec/mod.rs` lines 261-279). -/
def readCompoundAux (e : Endian) (b : List Nat) :
    Except NBTError (Value × {r : List Nat // r.length ≤ b.length}) :=
  match readCompoundEntriesAux e [] b with
  | .error err => .error err
  | .ok (m, r) => .ok (.compound m, r)
termination_by (b.length, 1)
decreasing_by
  exact Prod.Lex.right _ (by omega)

/-- The entry loop of `read_compound`: read a tag byte, stop on `End`,
otherwise read the name and payload and insert into the accumulated map. -/
def readCompoundEntriesAux (e : Endian) (acc : List (List Nat × Value)) (b : List Nat) :
    Except NBTError (List (List Nat × Value) × {r : List Nat // r.length ≤ b.length}) :=
  match readSignedS 1 e b with
  | .error err => .error err
  | .ok (tagId, b1) =>
    match Tag.tryFrom (intCastU8 tagId) with
    | .error err => .error err
    | .ok tag =>
      if tag = Tag.end_ then .ok (acc, ⟨b1.val, by have := b1.2; omega⟩)
      else
        match read_stringS e b1.val with
        | .error err => .error err
        | .ok (name, b2) =>
          match readValueAux e tag b2.val with
          | .error err => .error err
          | .ok (v, b3) =>
            match readCompoundEntriesAux e (mapInsert name v acc) b3.val with
            | .error err => .error err
            | .ok (m, b4) =>
              .ok (m, ⟨b4.val, by have := b1.2; have := b2.2; have := b3.2; have := b4.2; omega⟩)
termination_by (b.length, 0)
decreasing_by
  · exact Prod.Lex.left _ _ (by have := b1.2; have := b2.2; omega)
  · exact Prod.Lex.left _ _ (by have := b1.2; have := b2.2; have := b3.2; omega)

end

/-- `read_value`: plain-signature wrapper of `readValueAux`. -/
def read_value (e : Endian) (t : Tag) (b : List Nat) :
    Except NBTError (Value × List Nat) :=
  match readValueAux e t b with
  | .error err => .error err
  | .ok (v, r) => .ok (v, r.val)

/-- `read_list`: plain-signature wrapper of `readListAux`. -/
def read_list (e : Endian) (b : List Nat) : Except NBTError (Value × List Nat) :=
  match readListAux e b with
  | .error err => .error err
  | .ok (v, r) => .ok (v, r.val)

/-- The element loop of `read_list`, plain signature. -/
def read_list_elems (e : Endian) (t : Tag) (n : Nat) (b : List Nat) :
    Except NBTError (List Value × List Nat) :=
  match readListElemsAux e t n b with
  | .error err => .error err
  | .ok (v, r) => .ok (v, r.val)

/-- `read_compound`: plain-signature wrapper of `readCompoundAux`. -/
def read_compound (e : Endian) (b : List Nat) : Except NBTError (Value × List Nat) :=
  match readCompoundAux e b with
  | .error err => .error err
  | .ok (v, r) => .ok (v, r.val)

/-- The entry loop of `read_compound`, plain signature. -/
def read_compound_entries (e : Endian) (acc : List (List Nat × Value)) (b : List Nat) :
    Except NBTError (List (List Nat × Value) × List Nat) :=
  match readCompoundEntriesAux e acc b with
  | .error err => .error err
  | .ok (v, r) => .ok (v, r.val)

/-- `read_tag` (`src/codec/mod.rs` lines 124-138): tag byte (`read_u8`),
name string with the empty string collapsed to `None`, then the payload. -/
def read_tag (e : Endian) (b : List Nat) :
    Except NBTError ((Option (List Nat) × Value) × List Nat) :=
  match read_u8 e b with
  | .error err => .error err
  | .ok (tagByte, b1) =>
    match Tag.tryFrom tagByte with
    | .error err => .error err
    | .ok tag =>
      match read_string e b1 with
      | .error err => .error err
      | .ok (name, b2) =>
        let nameOpt := if name.isEmpty then none else some name
        match read_value e tag b2 with
        | .error err => .error err
        | .ok (v, b3) => .ok ((nameOpt, v), b3)


/-! ## Validity: the type- and format-level invariants of a Rust `Value`

`valid` collects what the Rust types guarantee for free (scalar ranges,
UTF-8 strings, `u32`-representable array lengths, strictly sorted compound
keys) together with the format-level conditions of the round-trip property
(homogeneous lists, list length at most 32767, string byte length at most
65535, and no `End` value among compound entries — an `End` entry tag byte
is indistinguishable from the compound terminator on the wire). -/

/-- The homogeneity condition `write_list` enforces: every element has the
tag of the first. -/
def homogeneous : List Value → Bool
  | [] => true
  | x :: xs => xs.all (fun y => decide (y.tag = x.tag))

/-- Strictly ascending keys, the `BTreeMap` shape invariant. -/
def sortedEntries : List (List Nat × Value) → Bool
  | [] => true
  | [_] => true
  | (k1, _) :: (k2, v2) :: es => keyLt k1 k2 && sortedEntries ((k2, v2) :: es)

mutual

/-- Validity of a value tree (see the section comment). -/
def valid : Value → Bool
  | .end_ => true
  | .byte v => decide (-(2 ^ 7) ≤ v) && decide (v < 2 ^ 7)
  | .short v => decide (-(2 ^ 15) ≤ v) && decide (v < 2 ^ 15)
  | .int v => decide (-(2 ^ 31) ≤ v) && decide (v < 2 ^ 31)
  | .long v => decide (-(2 ^ 63) ≤ v) && decide (v < 2 ^ 63)
  | .float bits => decide (bits < 2 ^ 32)
  | .double bits => decide (bits < 2 ^ 64)
  | .byteArray l =>
    decide (l.length < 2 ^ 32) && l.all (fun x => decide (-(2 ^ 7) ≤ x) && decide (x < 2 ^ 7))
  | .string s => decide (s.length ≤ 65535) && isValidUtf8 s
  | .list xs => decide (xs.length ≤ 32767) && homogeneous xs && validList xs
  | .compound es => sortedEntries es && validEntries es
  | .intArray l =>
    decide (l.length < 2 ^ 32) && l.all (fun x => decide (-(2 ^ 31) ≤ x) && decide (x < 2 ^ 31))
  | .longArray l =>
    decide (l.length < 2 ^ 32) && l.all (fun x => decide (-(2 ^ 63) ≤ x) && decide (x < 2 ^ 63))
termination_by v => (sizeOf v, 1)

/-- Validity of every element of a list. -/
def validList : List Value → Bool
  | [] => true
  | x :: xs => valid x && validList xs
termination_by l => (sizeOf l, 0)

/-- Validity of every compound entry: UTF-8 key of string-representable
length, a non-`End` payload, and a valid payload. -/
def validEntries : List (List Nat × Value) → Bool
  | [] => true
  | (k, v) :: es =>
    decide (k.length ≤ 65535) && isValidUtf8 k && decide (v.tag ≠ Tag.end_)
      && valid v && validEntries es
termination_by l => (sizeOf l, 0)

end

/-- Validity of an optional top-level name: `None`, or a non-empty UTF-8
name of string-representable length. -/
def validName : Option (List Nat) → Bool
  | none => true
  | some s => decide (s ≠ []) && decide (s.length ≤ 65535) && isValidUtf8 s


/-! ### Unfolding equations for `valid` -/

@[simp] theorem valid_end : valid .end_ = true := by
  simp [valid]

@[simp] theorem valid_byte (v : Int) :
    valid (.byte v) = (decide (-(2 ^ 7) ≤ v) && decide (v < 2 ^ 7)) := by
  simp [valid]

@[simp] theorem valid_short (v : Int) :
    valid (.short v) = (decide (-(2 ^ 15) ≤ v) && decide (v < 2 ^ 15)) := by
  simp [valid]

@[simp] theorem valid_int (v : Int) :
    valid (.int v) = (decide (-(2 ^ 31) ≤ v) && decide (v < 2 ^ 31)) := by
  simp [valid]

@[simp] theorem valid_long (v : Int) :
    valid (.long v) = (decide (-(2 ^ 63) ≤ v) && decide (v < 2 ^ 63)) := by
  simp [valid]

@[simp] theorem valid_float (bits : Nat) : valid (.float bits) = decide (bits < 2 ^ 32) := by
  simp [valid]

@[simp] theorem valid_double (bits : Nat) : valid (.double bits) = decide (bits < 2 ^ 64) := by
  simp [valid]

@[simp] theorem valid_byteArray (l : List Int) :
    valid (.byteArray l) =
      (decide (l.length < 2 ^ 32)
        && l.all (fun x => decide (-(2 ^ 7) ≤ x) && decide (x < 2 ^ 7))) := by
  simp [valid]

@[simp] theorem valid_string (s : List Nat) :
    valid (.string s) = (decide (s.length ≤ 65535) && isValidUtf8 s) := by
  simp [valid]

@[simp] theorem valid_list (xs : List Value) :
    valid (.list xs) = (decide (xs.length ≤ 32767) && homogeneous xs && validList xs) := by
  simp [valid]

@[simp] theorem valid_compound (es : List (List Nat × Value)) :
    valid (.compound es) = (sortedEntries es && validEntries es) := by
  simp [valid]

@[simp] theorem valid_intArray (l : List Int) :
    valid (.intArray l) =
      (decide (l.length < 2 ^ 32)
        && l.all (fun x => decide (-(2 ^ 31) ≤ x) && decide (x < 2 ^ 31))) := by
  simp [valid]

@[simp] theorem valid_longArray (l : List Int) :
    valid (.longArray l) =
      (decide (l.length < 2 ^ 32)
        && l.all (fun x => decide (-(2 ^ 63) ≤ x) && decide (x < 2 ^ 63))) := by
  simp [valid]

@[simp] theorem validList_nil : validList [] = true := by
  simp [validList]

@[simp] theorem validList_cons (x : Value) (xs : List Value) :
    validList (x :: xs) = (valid x && validList xs) := by
  rw [validList]

@[simp] theorem validEntries_nil : validEntries [] = true := by
  simp [validEntries]

@[simp] theorem validEntries_cons (k : List Nat) (v : Value) (es : List (List Nat × Value)) :
    validEntries ((k, v) :: es) =
      (decide (k.length ≤ 65535) && isValidUtf8 k && decide (v.tag ≠ Tag.end_)
        && valid v && validEntries es) := by
  rw [validEntries]


/-! ## Round-trip lemmas for the primitive codecs -/

theorem readExact_append (n : Nat) (l rest : List Nat) (hl : l.length = n) :
    readExact n (l ++ rest) = .ok (l, rest) := by
  unfold readExact
  rw [if_pos (by simp [List.length_append]; omega)]
  subst hl
  rw [List.take_left, List.drop_left]

theorem readUnsigned_append (w : Nat) (e : Endian) (n : Nat) (rest : List Nat) :
    readUnsigned w e (natToBytes w e n ++ rest) = .ok (n % 2 ^ (8 * w), rest) := by
  unfold readUnsigned
  rw [readExact_append w _ rest (natToBytes_length w e n)]
  simp [bytesToNat_natToBytes]

theorem readUnsigned_append_small (w : Nat) (e : Endian) (n : Nat) (rest : List Nat)
    (h : n < 2 ^ (8 * w)) :
    readUnsigned w e (natToBytes w e n ++ rest) = .ok (n, rest) := by
  rw [readUnsigned_append, Nat.mod_eq_of_lt h]

theorem readSigned_write (w : Nat) (e : Endian) (v : Int) (rest : List Nat) (hw : 1 ≤ w)
    (h1 : -(2 ^ (8 * w - 1)) ≤ v) (h2 : v < 2 ^ (8 * w - 1)) :
    readSigned w e (natToBytes w e (toUnsigned w v) ++ rest) = .ok (v, rest) := by
  unfold readSigned
  simp only [readExact_append w _ rest (natToBytes_length w e _)]
  rw [bytesToNat_natToBytes, Nat.mod_eq_of_lt (toUnsigned_lt w v)]
  rw [toSigned_toUnsigned w v hw h1 h2]

theorem read_i8_write (e : Endian) (v : Int) (rest : List Nat)
    (h1 : -(2 ^ 7) ≤ v) (h2 : v < 2 ^ 7) :
    read_i8 e (write_i8 e v ++ rest) = .ok (v, rest) :=
  readSigned_write 1 e v rest (by omega) (by exact_mod_cast h1) (by exact_mod_cast h2)

theorem read_i16_write (e : Endian) (v : Int) (rest : List Nat)
    (h1 : -(2 ^ 15) ≤ v) (h2 : v < 2 ^ 15) :
    read_i16 e (write_i16 e v ++ rest) = .ok (v, rest) :=
  readSigned_write 2 e v rest (by omega) (by exact_mod_cast h1) (by exact_mod_cast h2)

theorem read_i32_write (e : Endian) (v : Int) (rest : List Nat)
    (h1 : -(2 ^ 31) ≤ v) (h2 : v < 2 ^ 31) :
    read_i32 e (write_i32 e v ++ rest) = .ok (v, rest) :=
  readSigned_write 4 e v rest (by omega) (by exact_mod_cast h1) (by exact_mod_cast h2)

theorem read_i64_write (e : Endian) (v : Int) (rest : List Nat)
    (h1 : -(2 ^ 63) ≤ v) (h2 : v < 2 ^ 63) :
    read_i64 e (write_i64 e v ++ rest) = .ok (v, rest) :=
  readSigned_write 8 e v rest (by omega) (by exact_mod_cast h1) (by exact_mod_cast h2)

theorem read_u8_write (e : Endian) (n : Nat) (rest : List Nat) (h : n < 2 ^ 8) :
    read_u8 e (write_u8 e n ++ rest) = .ok (n, rest) :=
  readUnsigned_append_small 1 e n rest (by exact_mod_cast h)

theorem read_u16_write (e : Endian) (n : Nat) (rest : List Nat) (h : n < 2 ^ 16) :
    read_u16 e (write_u16 e n ++ rest) = .ok (n, rest) :=
  readUnsigned_append_small 2 e n rest (by exact_mod_cast h)

theorem read_u32_write (e : Endian) (n : Nat) (rest : List Nat) (h : n < 2 ^ 32) :
    read_u32 e (write_u32 e n ++ rest) = .ok (n, rest) :=
  readUnsigned_append_small 4 e n rest (by exact_mod_cast h)

theorem read_f32_write (e : Endian) (bits : Nat) (rest : List Nat) (h : bits < 2 ^ 32) :
    read_f32 e (write_f32 e bits ++ rest) = .ok (bits, rest) :=
  readUnsigned_append_small 4 e bits rest (by exact_mod_cast h)

theorem read_f64_write (e : Endian) (bits : Nat) (rest : List Nat) (h : bits < 2 ^ 64) :
    read_f64 e (write_f64 e bits ++ rest) = .ok (bits, rest) :=
  readUnsigned_append_small 8 e bits rest (by exact_mod_cast h)

theorem read_string_write (e : Endian) (s rest : List Nat)
    (hlen : s.length ≤ 65535) (hutf : isValidUtf8 s = true) :
    read_string e (write_string e s ++ rest) = .ok (s, rest) := by
  unfold read_string write_string
  rw [List.append_assoc]
  simp only [read_u16_write e s.length (s ++ rest) (by omega)]
  simp only [readExact_append s.length s rest rfl]
  simp [hutf]

theorem map_toSigned_toUnsigned (w : Nat) (hw : 1 ≤ w) (l : List Int)
    (hrange : ∀ x ∈ l, -(2 ^ (8 * w - 1)) ≤ x ∧ x < 2 ^ (8 * w - 1)) :
    (l.map (toUnsigned w)).map (toSigned w) = l := by
  induction l with
  | nil => simp
  | cons x xs ih =>
    simp only [List.map_cons]
    rw [toSigned_toUnsigned w x hw (hrange x (by simp)).1 (hrange x (by simp)).2]
    rw [ih (fun y hy => hrange y (by simp [hy]))]

theorem read_byte_array_write (e : Endian) (l : List Int) (rest : List Nat)
    (hlen : l.length < 2 ^ 32)
    (hrange : ∀ x ∈ l, -(2 ^ 7) ≤ x ∧ x < 2 ^ 7) :
    read_byte_array e (write_byte_array e l ++ rest) = .ok (l, rest) := by
  unfold read_byte_array write_byte_array
  rw [List.append_assoc]
  simp only [read_u32_write e l.length _ hlen]
  simp only [readExact_append l.length (l.map (toUnsigned 1)) rest (List.length_map l (toUnsigned 1))]
  rw [map_toSigned_toUnsigned 1 (by omega) l
    (by intro x hx
        have := hrange x hx
        constructor <;> [exact_mod_cast this.1; exact_mod_cast this.2])]

theorem readScalars_write (w : Nat) (e : Endian) (l : List Int) (rest : List Nat)
    (hw : 1 ≤ w)
    (hrange : ∀ x ∈ l, -(2 ^ (8 * w - 1)) ≤ x ∧ x < 2 ^ (8 * w - 1)) :
    readScalars w e l.length
      ((l.map (fun v => natToBytes w e (toUnsigned w v))).flatten ++ rest) = .ok (l, rest) := by
  induction l with
  | nil => simp [readScalars]
  | cons x xs ih =>
    have hx := hrange x (by simp)
    have hxs : ∀ y ∈ xs, -(2 ^ (8 * w - 1)) ≤ y ∧ y < 2 ^ (8 * w - 1) :=
      fun y hy => hrange y (by simp [hy])
    simp only [List.map_cons, List.flatten_cons, List.length_cons]
    rw [List.append_assoc]
    unfold readScalars
    simp only [readSigned_write w e x _ hw hx.1 hx.2]
    simp only [ih hxs]

theorem read_int_array_write (e : Endian) (l : List Int) (rest : List Nat)
    (hlen : l.length < 2 ^ 32)
    (hrange : ∀ x ∈ l, -(2 ^ 31) ≤ x ∧ x < 2 ^ 31) :
    read_int_array e (write_int_array e l ++ rest) = .ok (l, rest) := by
  unfold read_int_array write_int_array
  rw [List.append_assoc]
  simp only [read_u32_write e l.length _ hlen]
  have := readScalars_write 4 e l rest (by omega)
    (by intro x hx; have := hrange x hx; constructor <;> [exact_mod_cast this.1; exact_mod_cast this.2])
  simpa [write_i32] using this

theorem read_long_array_write (e : Endian) (l : List Int) (rest : List Nat)
    (hlen : l.length < 2 ^ 32)
    (hrange : ∀ x ∈ l, -(2 ^ 63) ≤ x ∧ x < 2 ^ 63) :
    read_long_array e (write_long_array e l ++ rest) = .ok (l, rest) := by
  unfold read_long_array write_long_array
  rw [List.append_assoc]
  simp only [read_u32_write e l.length _ hlen]
  have := readScalars_write 8 e l rest (by omega)
    (by intro x hx; have := hrange x hx; constructor <;> [exact_mod_cast this.1; exact_mod_cast this.2])
  simpa [write_i64] using this


/-! ## Step lemmas for the recursive readers -/

theorem readSignedS_ok {w : Nat} {e : Endian} {b : List Nat} {v : Int} {r : List Nat}
    (hx : readSigned w e b = .ok (v, r)) :
    readSignedS w e b = .ok (v, ⟨r, readSigned_length w e b v r hx⟩) := by
  unfold readSignedS
  split
  next h => rw [hx] at h; cases h
  next v2 r2 h =>
    rw [hx] at h
    simp only [Except.ok.injEq, Prod.mk.injEq] at h
    obtain ⟨h1, h2⟩ := h
    subst h1
    subst h2
    rfl

theorem read_stringS_ok {e : Endian} {b : List Nat} {v r : List Nat}
    (hx : read_string e b = .ok (v, r)) :
    read_stringS e b = .ok (v, ⟨r, read_string_length e b v r hx⟩) := by
  unfold read_stringS
  split
  next h => rw [hx] at h; cases h
  next v2 r2 h =>
    rw [hx] at h
    simp only [Except.ok.injEq, Prod.mk.injEq] at h
    obtain ⟨h1, h2⟩ := h
    subst h1
    subst h2
    rfl

theorem readValueAux_end (e : Endian) (b : List Nat) :
    readValueAux e .end_ b = .ok (.end_, ⟨b, le_refl _⟩) := by
  rw [readValueAux]

theorem readValueAux_byte {e : Endian} {b : List Nat} {v : Int} {r : List Nat}
    (hpf : r.length ≤ b.length) (hx : read_i8 e b = .ok (v, r)) :
    readValueAux e .byte b = .ok (.byte v, ⟨r, hpf⟩) := by
  rw [readValueAux]
  simp only [readSignedS_ok hx]

theorem readValueAux_short {e : Endian} {b : List Nat} {v : Int} {r : List Nat}
    (hpf : r.length ≤ b.length) (hx : read_i16 e b = .ok (v, r)) :
    readValueAux e .short b = .ok (.short v, ⟨r, hpf⟩) := by
  rw [readValueAux]
  simp only [readSignedS_ok hx]

theorem readValueAux_int {e : Endian} {b : List Nat} {v : Int} {r : List Nat}
    (hpf : r.length ≤ b.length) (hx : read_i32 e b = .ok (v, r)) :
    readValueAux e .int b = .ok (.int v, ⟨r, hpf⟩) := by
  rw [readValueAux]
  simp only [readSignedS_ok hx]

theorem readValueAux_long {e : Endian} {b : List Nat} {v : Int} {r : List Nat}
    (hpf : r.length ≤ b.length) (hx : read_i64 e b = .ok (v, r)) :
    readValueAux e .long b = .ok (.long v, ⟨r, hpf⟩) := by
  rw [readValueAux]
  simp only [readSignedS_ok hx]

theorem readValueAux_float {e : Endian} {b : List Nat} {v : Nat} {r : List Nat}
    (hpf : r.length ≤ b.length) (hx : read_f32 e b = .ok (v, r)) :
    readValueAux e .float b = .ok (.float v, ⟨r, hpf⟩) := by
  rw [readValueAux]
  split
  next h => rw [hx] at h; cases h
  next v2 r2 h =>
    rw [hx] at h
    simp only [Except.ok.injEq, Prod.mk.injEq] at h
    obtain ⟨h1, h2⟩ := h
    subst h1
    subst h2
    rfl

theorem readValueAux_double {e : Endian} {b : List Nat} {v : Nat} {r : List Nat}
    (hpf : r.length ≤ b.length) (hx : read_f64 e b = .ok (v, r)) :
    readValueAux e .double b = .ok (.double v, ⟨r, hpf⟩) := by
  rw [readValueAux]
  split
  next h => rw [hx] at h; cases h
  next v2 r2 h =>
    rw [hx] at h
    simp only [Except.ok.injEq, Prod.mk.injEq] at h
    obtain ⟨h1, h2⟩ := h
    subst h1
    subst h2
    rfl

theorem readValueAux_byteArray {e : Endian} {b : List Nat} {v : List Int} {r : List Nat}
    (hpf : r.length ≤ b.length) (hx : read_byte_array e b = .ok (v, r)) :
    readValueAux e .byteArray b = .ok (.byteArray v, ⟨r, hpf⟩) := by
  rw [readValueAux]
  split
  next h => rw [hx] at h; cases h
  next v2 r2 h =>
    rw [hx] at h
    simp only [Except.ok.injEq, Prod.mk.injEq] at h
    obtain ⟨h1, h2⟩ := h
    subst h1
    subst h2
    rfl

theorem readValueAux_string {e : Endian} {b : List Nat} {v r : List Nat}
    (hpf : r.length ≤ b.length) (hx : read_string e b = .ok (v, r)) :
    readValueAux e .string b = .ok (.string v, ⟨r, hpf⟩) := by
  rw [readValueAux]
  simp only [read_stringS_ok hx]

theorem readValueAux_intArray {e : Endian} {b : List Nat} {v : List Int} {r : List Nat}
    (hpf : r.length ≤ b.length) (hx : read_int_array e b = .ok (v, r)) :
    readValueAux e .intArray b = .ok (.intArray v, ⟨r, hpf⟩) := by
  rw [readValueAux]
  split
  next h => rw [hx] at h; cases h
  next v2 r2 h =>
    rw [hx] at h
    simp only [Except.ok.injEq, Prod.mk.injEq] at h
    obtain ⟨h1, h2⟩ := h
    subst h1
    subst h2
    rfl

theorem readValueAux_longArray {e : Endian} {b : List Nat} {v : List Int} {r : List Nat}
    (hpf : r.length ≤ b.length) (hx : read_long_array e b = .ok (v, r)) :
    readValueAux e .longArray b = .ok (.longArray v, ⟨r, hpf⟩) := by
  rw [readValueAux]
  split
  next h => rw [hx] at h; cases h
  next v2 r2 h =>
    rw [hx] at h
    simp only [Except.ok.injEq, Prod.mk.injEq] at h
    obtain ⟨h1, h2⟩ := h
    subst h1
    subst h2
    rfl

theorem readValueAux_list (e : Endian) (b : List Nat) :
    readValueAux e .list b = readListAux e b := by
  rw [readValueAux]

theorem readValueAux_compound (e : Endian) (b : List Nat) :
    readValueAux e .compound b = readCompoundAux e b := by
  rw [readValueAux]


theorem readListAux_ok {e : Endian} {b b1 b2 b3 : List Nat} {tid len : Int} {etag : Tag}
    {xs : List Value}
    (hp3 : b3.length ≤ b2.length)
    (hpf3 : b3.length ≤ b.length)
    (hx1 : read_i8 e b = .ok (tid, b1))
    (hx2 : Tag.tryFrom (intCastU8 tid) = .ok etag)
    (hx3 : read_i32 e b1 = .ok (len, b2))
    (hcond : ¬ (len < 0 ∨ len > 32767))
    (hx4 : readListElemsAux e etag len.toNat b2 = .ok (xs, ⟨b3, hp3⟩)) :
    readListAux e b = .ok (.list xs, ⟨b3, hpf3⟩) := by
  rw [readListAux]
  simp only [readSignedS_ok hx1, hx2, readSignedS_ok hx3, if_neg hcond, hx4]

theorem readListAux_badLength {e : Endian} {b b1 b2 : List Nat} {tid len : Int} {etag : Tag}
    (hx1 : read_i8 e b = .ok (tid, b1))
    (hx2 : Tag.tryFrom (intCastU8 tid) = .ok etag)
    (hx3 : read_i32 e b1 = .ok (len, b2))
    (hcond : len < 0 ∨ len > 32767) :
    readListAux e b = .error (.invalidStringLength (intCastUsize len)) := by
  rw [readListAux]
  simp only [readSignedS_ok hx1, hx2, readSignedS_ok hx3, if_pos hcond]

theorem readListElemsAux_zero (e : Endian) (t : Tag) (b : List Nat) :
    readListElemsAux e t 0 b = .ok ([], ⟨b, le_refl _⟩) := by
  rw [readListElemsAux]

theorem readListElemsAux_succ {e : Endian} {t : Tag} {m : Nat} {b b1 b2 : List Nat}
    {v : Value} {vs : List Value}
    (hp1 : b1.length ≤ b.length) (hp2 : b2.length ≤ b1.length)
    (hpf : b2.length ≤ b.length)
    (hx : readValueAux e t b = .ok (v, ⟨b1, hp1⟩))
    (hy : readListElemsAux e t m b1 = .ok (vs, ⟨b2, hp2⟩)) :
    readListElemsAux e t (m + 1) b = .ok (v :: vs, ⟨b2, hpf⟩) := by
  rw [readListElemsAux]
  simp only [hx, hy]

theorem readCompoundAux_ok {e : Endian} {b r : List Nat}
    {m : List (List Nat × Value)}
    (hpf : r.length ≤ b.length)
    (hx : readCompoundEntriesAux e [] b = .ok (m, ⟨r, hpf⟩)) :
    readCompoundAux e b = .ok (.compound m, ⟨r, hpf⟩) := by
  rw [readCompoundAux]
  simp only [hx]

theorem readCompoundEntriesAux_end {e : Endian} {acc : List (List Nat × Value)}
    {b b1 : List Nat} {tid : Int}
    (hpf : b1.length ≤ b.length)
    (hx1 : read_i8 e b = .ok (tid, b1))
    (hx2 : Tag.tryFrom (intCastU8 tid) = .ok .end_) :
    readCompoundEntriesAux e acc b = .ok (acc, ⟨b1, hpf⟩) := by
  rw [readCompoundEntriesAux]
  simp only [readSignedS_ok hx1, hx2]
  simp

theorem readCompoundEntriesAux_step {e : Endian} {acc : List (List Nat × Value)}
    {b b1 b2 b3 b4 : List Nat} {tid : Int} {tag : Tag} {name : List Nat} {v : Value}
    {m : List (List Nat × Value)}
    (hp3 : b3.length ≤ b2.length) (hp4 : b4.length ≤ b3.length)
    (hpf : b4.length ≤ b.length)
    (hx1 : read_i8 e b = .ok (tid, b1))
    (hx2 : Tag.tryFrom (intCastU8 tid) = .ok tag)
    (hne : tag ≠ .end_)
    (hx3 : read_string e b1 = .ok (name, b2))
    (hx4 : readValueAux e tag b2 = .ok (v, ⟨b3, hp3⟩))
    (hx5 : readCompoundEntriesAux e (mapInsert name v acc) b3 = .ok (m, ⟨b4, hp4⟩)) :
    readCompoundEntriesAux e acc b = .ok (m, ⟨b4, hpf⟩) := by
  rw [readCompoundEntriesAux]
  simp only [readSignedS_ok hx1, hx2, if_neg hne]
  have hx3s := read_stringS_ok hx3
  simp only [hx3s]
  simp only [hx4, hx5]

/-! ## Order lemmas for `keyLt` and `mapInsert` -/

theorem keyLt_irrefl (k : List Nat) : keyLt k k = false := by
  induction k with
  | nil => rfl
  | cons x xs ih => simp [keyLt, ih]

theorem keyLt_asymm (x : List Nat) : ∀ y, keyLt x y = true → keyLt y x = false := by
  induction x with
  | nil =>
    intro y h
    cases y with
    | nil => simp [keyLt] at h
    | cons b bs => rfl
  | cons a as ih =>
    intro y h
    cases y with
    | nil => simp [keyLt] at h
    | cons b bs =>
      simp only [keyLt] at h ⊢
      by_cases h1 : a < b
      · rw [if_neg (by omega : ¬ b < a), if_neg (by omega : ¬ b = a)]
      · rw [if_neg h1] at h
        by_cases h2 : a = b
        · rw [if_pos h2] at h
          subst h2
          rw [if_neg (lt_irrefl a), if_pos rfl]
          exact ih bs h
        · rw [if_neg h2] at h
          cases h

theorem keyLt_trans (x : List Nat) :
    ∀ y z, keyLt x y = true → keyLt y z = true → keyLt x z = true := by
  induction x with
  | nil =>
    intro y z h1 h2
    cases y with
    | nil => simp [keyLt] at h1
    | cons b bs =>
      cases z with
      | nil => simp [keyLt] at h2
      | cons c cs => rfl
  | cons a as ih =>
    intro y z h1 h2
    cases y with
    | nil => simp [keyLt] at h1
    | cons b bs =>
      cases z with
      | nil => simp [keyLt] at h2
      | cons c cs =>
        simp only [keyLt] at h1 h2 ⊢
        by_cases hab : a < b
        · by_cases hbc : b < c
          · rw [if_pos (by omega : a < c)]
          · rw [if_neg hbc] at h2
            by_cases hbc2 : b = c
            · rw [if_pos (by omega : a < c)]
            · rw [if_neg hbc2] at h2
              cases h2
        · rw [if_neg hab] at h1
          by_cases hab2 : a = b
          · rw [if_pos hab2] at h1
            by_cases hbc : b < c
            · rw [if_pos (by omega : a < c)]
            · rw [if_neg hbc] at h2
              by_cases hbc2 : b = c
              · rw [if_neg (by omega : ¬ a < c), if_pos (by omega : a = c)]
                exact ih bs cs h1 (by rw [if_pos hbc2] at h2; exact h2)
              · rw [if_neg hbc2] at h2
                cases h2
          · rw [if_neg hab2] at h1
            cases h1

theorem keyLt_ne {x y : List Nat} (h : keyLt x y = true) : x ≠ y := by
  intro he
  subst he
  rw [keyLt_irrefl] at h
  cases h

theorem keyLt_total (x : List Nat) :
    ∀ y, keyLt x y = false → x ≠ y → keyLt y x = true := by
  induction x with
  | nil =>
    intro y h hne
    cases y with
    | nil => exact absurd rfl hne
    | cons b bs => simp [keyLt] at h
  | cons a as ih =>
    intro y h hne
    cases y with
    | nil => rfl
    | cons b bs =>
      simp only [keyLt] at h ⊢
      by_cases hab : a < b
      · rw [if_pos hab] at h
        cases h
      · rw [if_neg hab] at h
        by_cases hab2 : a = b
        · rw [if_pos hab2] at h
          subst hab2
          rw [if_neg (lt_irrefl a), if_pos rfl]
          exact ih bs h (by intro hx; exact hne (by rw [hx]))
        · rw [if_pos (by omega : b < a)]

/-- Everything in `m` is strictly below the key `kb`. -/
def belowAll (kb : List Nat) (m : List (List Nat × Value)) : Prop :=
  ∀ a ∈ m, keyLt kb a.1 = true

theorem sortedEntries_cons {k : List Nat} {v : Value} {es : List (List Nat × Value)}
    (h : sortedEntries ((k, v) :: es) = true) :
    sortedEntries es = true ∧ belowAll k es := by
  induction es generalizing k v with
  | nil => exact ⟨rfl, by intro a ha; cases ha⟩
  | cons kv2 es2 ih =>
    obtain ⟨k2, v2⟩ := kv2
    rw [sortedEntries] at h
    simp only [Bool.and_eq_true] at h
    obtain ⟨hlt, hrest⟩ := h
    obtain ⟨hs2, hb2⟩ := ih hrest
    refine ⟨hrest, ?_⟩
    intro a ha
    rcases List.mem_cons.mp ha with ha | ha
    · subst ha
      exact hlt
    · exact keyLt_trans k k2 a.1 hlt (hb2 a ha)

theorem sortedEntries_of_cons {k : List Nat} {v : Value} {es : List (List Nat × Value)}
    (hs : sortedEntries es = true) (hb : belowAll k es) :
    sortedEntries ((k, v) :: es) = true := by
  cases es with
  | nil => rfl
  | cons kv2 es2 =>
    obtain ⟨k2, v2⟩ := kv2
    rw [sortedEntries]
    simp only [Bool.and_eq_true]
    exact ⟨hb (k2, v2) (by simp), hs⟩

theorem mem_mapInsert {k : List Nat} {v : Value} (a : List Nat × Value) :
    ∀ m, a ∈ mapInsert k v m → a.1 = k ∨ a ∈ m := by
  intro m
  induction m with
  | nil =>
    intro h
    simp only [mapInsert, List.mem_singleton] at h
    subst h
    exact Or.inl rfl
  | cons kv2 rest ih =>
    obtain ⟨k2, v2⟩ := kv2
    intro h
    rw [mapInsert] at h
    split at h
    · rcases List.mem_cons.mp h with h | h
      · subst h
        exact Or.inl rfl
      · exact Or.inr h
    · split at h
      · rcases List.mem_cons.mp h with h | h
        · subst h
          exact Or.inl rfl
        · exact Or.inr (List.mem_cons_of_mem _ h)
      · rcases List.mem_cons.mp h with h | h
        · subst h
          exact Or.inr (by simp)
        · rcases ih h with h2 | h2
          · exact Or.inl h2
          · exact Or.inr (List.mem_cons_of_mem _ h2)

theorem mapInsert_sorted (k : List Nat) (v : Value) :
    ∀ m, sortedEntries m = true → sortedEntries (mapInsert k v m) = true := by
  intro m
  induction m with
  | nil => intro _; rfl
  | cons kv2 rest ih =>
    obtain ⟨k2, v2⟩ := kv2
    intro hs
    obtain ⟨hrest, hbelow⟩ := sortedEntries_cons hs
    rw [mapInsert]
    split
    next hlt =>
      apply sortedEntries_of_cons hs
      intro a ha
      rcases List.mem_cons.mp ha with ha | ha
      · subst ha
        exact hlt
      · exact keyLt_trans k k2 a.1 hlt (hbelow a ha)
    · split
      next heq =>
        subst heq
        exact sortedEntries_of_cons hrest hbelow
      next hlt heq =>
        have hk2k : keyLt k2 k = true := keyLt_total k k2 (by simpa using hlt) heq
        apply sortedEntries_of_cons (ih hrest)
        intro a ha
        rcases mem_mapInsert a rest ha with ha | ha
        · rw [ha]
          exact hk2k
        · exact hbelow a ha

theorem mapInsert_append (k : List Nat) (v : Value) :
    ∀ m, (∀ a ∈ m, keyLt a.1 k = true) → mapInsert k v m = m ++ [(k, v)] := by
  intro m
  induction m with
  | nil => intro _; rfl
  | cons kv2 rest ih =>
    obtain ⟨k2, v2⟩ := kv2
    intro hb
    have hlt : keyLt k2 k = true := hb (k2, v2) (by simp)
    rw [mapInsert]
    rw [if_neg (by simp [keyLt_asymm k2 k hlt])]
    rw [if_neg (Ne.symm (keyLt_ne hlt))]
    rw [ih (fun a ha => hb a (List.mem_cons_of_mem _ ha))]
    rfl


/-- Fold `mapInsert` over a list of entries, in order: the shape of the
decode loop of `read_compound`. -/
def insertAll : List (List Nat × Value) → List (List Nat × Value) → List (List Nat × Value)
  | acc, [] => acc
  | acc, (k, v) :: es => insertAll (mapInsert k v acc) es

theorem insertAll_sorted (es : List (List Nat × Value)) :
    ∀ acc, sortedEntries es = true →
      (∀ a ∈ acc, ∀ bn ∈ es, keyLt a.1 bn.1 = true) →
      insertAll acc es = acc ++ es := by
  induction es with
  | nil => intro acc _ _; simp [insertAll]
  | cons kv es ih =>
    obtain ⟨k, v⟩ := kv
    intro acc hs hcross
    obtain ⟨hses, hbelow⟩ := sortedEntries_cons hs
    rw [insertAll]
    rw [mapInsert_append k v acc (fun a ha => hcross a ha (k, v) (by simp))]
    rw [ih (acc ++ [(k, v)]) hses ?side]
    · simp
    case side =>
      intro a ha bn hbn
      rcases List.mem_append.mp ha with ha | ha
      · exact hcross a ha bn (List.mem_cons_of_mem _ hbn)
      · simp only [List.mem_singleton] at ha
        subst ha
        exact hbelow bn hbn

theorem insertAll_nil_sorted (es : List (List Nat × Value))
    (hs : sortedEntries es = true) : insertAll [] es = es := by
  rw [insertAll_sorted es [] hs (by intro a ha; cases ha)]
  rfl

/-! ## Key lookup and counting (for the compound-uniqueness property) -/

/-- The number of entries bound to key `k`. -/
def countKey (k : List Nat) (m : List (List Nat × Value)) : Nat :=
  (m.filter (fun a => decide (a.1 = k))).length

/-- The value bound to key `k`, scanning left to right. -/
def lookupKey (k : List Nat) : List (List Nat × Value) → Option Value
  | [] => none
  | (k2, v) :: rest => if k = k2 then some v else lookupKey k rest

theorem lookupKey_mapInsert (k : List Nat) (v : Value) :
    ∀ m, lookupKey k (mapInsert k v m) = some v := by
  intro m
  induction m with
  | nil => simp [mapInsert, lookupKey]
  | cons kv2 rest ih =>
    obtain ⟨k2, v2⟩ := kv2
    rw [mapInsert]
    split
    · simp [lookupKey]
    · split
      · simp [lookupKey]
      next hlt heq => simp [lookupKey, if_neg heq, ih]

theorem countKey_eq_zero {k : List Nat} {m : List (List Nat × Value)}
    (h : ∀ a ∈ m, a.1 ≠ k) : countKey k m = 0 := by
  unfold countKey
  rw [List.filter_eq_nil_iff.mpr]
  · rfl
  · intro a ha
    simp [h a ha]

theorem countKey_cons_ne {k k2 : List Nat} {v2 : Value} {m : List (List Nat × Value)}
    (h : k2 ≠ k) : countKey k ((k2, v2) :: m) = countKey k m := by
  unfold countKey
  rw [List.filter_cons_of_neg]
  simp [h]

theorem countKey_cons_eq {k : List Nat} {v2 : Value} {m : List (List Nat × Value)} :
    countKey k ((k, v2) :: m) = countKey k m + 1 := by
  unfold countKey
  rw [List.filter_cons_of_pos]
  · simp
  · simp

theorem countKey_mapInsert_sorted (k : List Nat) (v : Value) :
    ∀ m, sortedEntries m = true → countKey k (mapInsert k v m) = 1 := by
  intro m
  induction m with
  | nil => simp [mapInsert, countKey]
  | cons kv2 rest ih =>
    obtain ⟨k2, v2⟩ := kv2
    intro hs
    obtain ⟨hrest, hbelow⟩ := sortedEntries_cons hs
    rw [mapInsert]
    split
    next hlt =>
      rw [countKey_cons_eq, countKey_cons_ne (Ne.symm (keyLt_ne hlt))]
      rw [countKey_eq_zero]
      intro a ha
      exact Ne.symm (keyLt_ne (keyLt_trans k k2 a.1 hlt (hbelow a ha)))
    · split
      next heq =>
        subst heq
        rw [countKey_cons_eq, countKey_eq_zero]
        intro a ha
        exact Ne.symm (keyLt_ne (hbelow a ha))
      next hlt heq =>
        rw [countKey_cons_ne (Ne.symm heq), ih hrest]


/-! ## Auxiliary facts for the round-trip induction -/

theorem suffix_le (bs rest : List Nat) : rest.length ≤ (bs ++ rest).length := by
  simp

theorem suffix_le_mid (u w rest : List Nat) : rest.length ≤ (u ++ (w ++ rest)).length := by
  simp
  omega

theorem intCastU8_coe (n : Nat) (h : n < 256) : intCastU8 ((n : Nat) : Int) = n := by
  unfold intCastU8
  have h0 : (0 : Int) ≤ (n : Int) := by exact_mod_cast Nat.zero_le n
  have h2 : (n : Int) < 2 ^ (8 * 1) := by exact_mod_cast h
  have := toUnsigned_of_nonneg 1 (n : Int) h0 h2
  exact_mod_cast this

theorem firstMismatch_none (t : Tag) :
    ∀ l : List Value, (∀ y ∈ l, y.tag = t) → ∀ i, firstMismatch t i l = none := by
  intro l
  induction l with
  | nil => intro _ i; rfl
  | cons x xs ih =>
    intro h i
    rw [firstMismatch]
    rw [if_neg (by simp [h x (by simp)])]
    exact ih (fun y hy => h y (List.mem_cons_of_mem _ hy)) (i + 1)

theorem homogeneous_forall {x : Value} {xs : List Value}
    (h : homogeneous (x :: xs) = true) : ∀ y ∈ x :: xs, y.tag = x.tag := by
  intro y hy
  rcases List.mem_cons.mp hy with hy | hy
  · subst hy; rfl
  · rw [homogeneous] at h
    rw [List.all_eq_true] at h
    have := h y hy
    simpa using this

theorem validList_forall {xs : List Value} (h : validList xs = true) :
    ∀ y ∈ xs, valid y = true := by
  induction xs with
  | nil => intro y hy; cases hy
  | cons x xs2 ih =>
    rw [validList_cons] at h
    simp only [Bool.and_eq_true] at h
    intro y hy
    rcases List.mem_cons.mp hy with hy | hy
    · subst hy; exact h.1
    · exact ih h.2 y hy

theorem validEntries_forall {es : List (List Nat × Value)} (h : validEntries es = true) :
    ∀ kv ∈ es, kv.1.length ≤ 65535 ∧ isValidUtf8 kv.1 = true
      ∧ kv.2.tag ≠ Tag.end_ ∧ valid kv.2 = true := by
  induction es with
  | nil => intro kv hkv; cases hkv
  | cons kv2 es2 ih =>
    obtain ⟨k2, v2⟩ := kv2
    rw [validEntries_cons] at h
    simp only [Bool.and_eq_true, decide_eq_true_eq] at h
    intro kv hkv
    rcases List.mem_cons.mp hkv with hkv | hkv
    · subst hkv
      exact ⟨h.1.1.1.1, h.1.1.1.2, h.1.1.2, h.1.2⟩
    · exact ih h.2 kv hkv

theorem value_sizeOf_pos (v : Value) : 0 < sizeOf v := by
  cases v <;> simp_arith


instance {ε α : Type} [DecidableEq ε] [DecidableEq α] : DecidableEq (Except ε α) :=
  fun a b =>
    match a, b with
    | .ok x, .ok y =>
      if h : x = y then .isTrue (by rw [h]) else .isFalse (by intro hc; cases hc; exact h rfl)
    | .error x, .error y =>
      if h : x = y then .isTrue (by rw [h]) else .isFalse (by intro hc; cases hc; exact h rfl)
    | .ok _, .error _ => .isFalse (by intro hc; cases hc)
    | .error _, .ok _ => .isFalse (by intro hc; cases hc)

/-! ## Wrapper-level reader step lemmas

The subtype-carrying auxiliary readers are awkward to rewrite under, so the
facts used by the round-trip proof and the claims are stated for the plain
wrappers; each is transported through the corresponding auxiliary lemma. -/

theorem read_value_wrap {e : Endian} {t : Tag} {b : List Nat} {v : Value} {r : List Nat}
    {hp : r.length ≤ b.length} (hx : readValueAux e t b = .ok (v, ⟨r, hp⟩)) :
    read_value e t b = .ok (v, r) := by
  unfold read_value
  simp only [hx]

theorem read_value_aux_inv {e : Endian} {t : Tag} {b : List Nat} {v : Value} {r : List Nat}
    (h : read_value e t b = .ok (v, r)) :
    ∃ hp : r.length ≤ b.length, readValueAux e t b = .ok (v, ⟨r, hp⟩) := by
  unfold read_value at h
  cases hx : readValueAux e t b with
  | error err => simp only [hx] at h; exact absurd h (by simp)
  | ok p =>
    obtain ⟨v2, r2⟩ := p
    simp only [hx, Except.ok.injEq, Prod.mk.injEq] at h
    obtain ⟨hv, hr⟩ := h
    subst hv
    refine ⟨hr ▸ r2.prop, ?_⟩
    have hsub : (⟨r, hr ▸ r2.prop⟩ : {x : List Nat // x.length ≤ b.length}) = r2 :=
      Subtype.ext hr.symm
    rw [hsub]

theorem read_list_elems_aux_inv {e : Endian} {t : Tag} {n : Nat} {b : List Nat}
    {vs : List Value} {r : List Nat}
    (h : read_list_elems e t n b = .ok (vs, r)) :
    ∃ hp : r.length ≤ b.length, readListElemsAux e t n b = .ok (vs, ⟨r, hp⟩) := by
  unfold read_list_elems at h
  cases hx : readListElemsAux e t n b with
  | error err => simp only [hx] at h; exact absurd h (by simp)
  | ok p =>
    obtain ⟨v2, r2⟩ := p
    simp only [hx, Except.ok.injEq, Prod.mk.injEq] at h
    obtain ⟨hv, hr⟩ := h
    subst hv
    refine ⟨hr ▸ r2.prop, ?_⟩
    have hsub : (⟨r, hr ▸ r2.prop⟩ : {x : List Nat // x.length ≤ b.length}) = r2 :=
      Subtype.ext hr.symm
    rw [hsub]

theorem read_compound_entries_aux_inv {e : Endian} {acc m : List (List Nat × Value)}
    {b r : List Nat}
    (h : read_compound_entries e acc b = .ok (m, r)) :
    ∃ hp : r.length ≤ b.length, readCompoundEntriesAux e acc b = .ok (m, ⟨r, hp⟩) := by
  unfold read_compound_entries at h
  cases hx : readCompoundEntriesAux e acc b with
  | error err => simp only [hx] at h; exact absurd h (by simp)
  | ok p =>
    obtain ⟨v2, r2⟩ := p
    simp only [hx, Except.ok.injEq, Prod.mk.injEq] at h
    obtain ⟨hv, hr⟩ := h
    subst hv
    refine ⟨hr ▸ r2.prop, ?_⟩
    have hsub : (⟨r, hr ▸ r2.prop⟩ : {x : List Nat // x.length ≤ b.length}) = r2 :=
      Subtype.ext hr.symm
    rw [hsub]

theorem read_value_end (e : Endian) (b : List Nat) :
    read_value e .end_ b = .ok (.end_, b) :=
  read_value_wrap (readValueAux_end e b)

theorem read_value_byte {e : Endian} {b : List Nat} {v : Int} {r : List Nat}
    (hx : read_i8 e b = .ok (v, r)) : read_value e .byte b = .ok (.byte v, r) :=
  read_value_wrap (readValueAux_byte
    (by have := readSigned_length 1 e b v r hx; omega) hx)

theorem read_value_short {e : Endian} {b : List Nat} {v : Int} {r : List Nat}
    (hx : read_i16 e b = .ok (v, r)) : read_value e .short b = .ok (.short v, r) :=
  read_value_wrap (readValueAux_short
    (by have := readSigned_length 2 e b v r hx; omega) hx)

theorem read_value_int {e : Endian} {b : List Nat} {v : Int} {r : List Nat}
    (hx : read_i32 e b = .ok (v, r)) : read_value e .int b = .ok (.int v, r) :=
  read_value_wrap (readValueAux_int
    (by have := readSigned_length 4 e b v r hx; omega) hx)

theorem read_value_long {e : Endian} {b : List Nat} {v : Int} {r : List Nat}
    (hx : read_i64 e b = .ok (v, r)) : read_value e .long b = .ok (.long v, r) :=
  read_value_wrap (readValueAux_long
    (by have := readSigned_length 8 e b v r hx; omega) hx)

theorem read_value_float {e : Endian} {b : List Nat} {v : Nat} {r : List Nat}
    (hx : read_f32 e b = .ok (v, r)) : read_value e .float b = .ok (.float v, r) :=
  read_value_wrap (readValueAux_float
    (by have := readUnsigned_length 4 e b v r hx; omega) hx)

theorem read_value_double {e : Endian} {b : List Nat} {v : Nat} {r : List Nat}
    (hx : read_f64 e b = .ok (v, r)) : read_value e .double b = .ok (.double v, r) :=
  read_value_wrap (readValueAux_double
    (by have := readUnsigned_length 8 e b v r hx; omega) hx)

theorem read_value_byteArray {e : Endian} {b : List Nat} {v : List Int} {r : List Nat}
    (hx : read_byte_array e b = .ok (v, r)) :
    read_value e .byteArray b = .ok (.byteArray v, r) :=
  read_value_wrap (readValueAux_byteArray (read_byte_array_length e b v r hx) hx)

theorem read_value_string {e : Endian} {b : List Nat} {v r : List Nat}
    (hx : read_string e b = .ok (v, r)) : read_value e .string b = .ok (.string v, r) :=
  read_value_wrap (readValueAux_string
    (by have := read_string_length e b v r hx; omega) hx)

theorem read_value_intArray {e : Endian} {b : List Nat} {v : List Int} {r : List Nat}
    (hx : read_int_array e b = .ok (v, r)) :
    read_value e .intArray b = .ok (.intArray v, r) :=
  read_value_wrap (readValueAux_intArray (read_int_array_length e b v r hx) hx)

theorem read_value_longArray {e : Endian} {b : List Nat} {v : List Int} {r : List Nat}
    (hx : read_long_array e b = .ok (v, r)) :
    read_value e .longArray b = .ok (.longArray v, r) :=
  read_value_wrap (readValueAux_longArray (read_long_array_length e b v r hx) hx)

theorem read_value_tag_list (e : Endian) (b : List Nat) :
    read_value e .list b = read_list e b := by
  unfold read_value read_list
  rw [readValueAux_list]

theorem read_value_tag_compound (e : Endian) (b : List Nat) :
    read_value e .compound b = read_compound e b := by
  unfold read_value read_compound
  rw [readValueAux_compound]

theorem read_list_elems_zero (e : Endian) (t : Tag) (b : List Nat) :
    read_list_elems e t 0 b = .ok ([], b) := by
  unfold read_list_elems
  rw [readListElemsAux_zero]

theorem read_list_elems_succ {e : Endian} {t : Tag} {m : Nat} {b b1 b2 : List Nat}
    {v : Value} {vs : List Value}
    (hx : read_value e t b = .ok (v, b1))
    (hy : read_list_elems e t m b1 = .ok (vs, b2)) :
    read_list_elems e t (m + 1) b = .ok (v :: vs, b2) := by
  obtain ⟨hp1, hx2⟩ := read_value_aux_inv hx
  obtain ⟨hp2, hy2⟩ := read_list_elems_aux_inv hy
  unfold read_list_elems
  rw [readListElemsAux_succ hp1 hp2 (le_trans hp2 hp1) hx2 hy2]

theorem read_list_ok {e : Endian} {b b1 b2 b3 : List Nat} {tid len : Int} {etag : Tag}
    {xs : List Value}
    (hx1 : read_i8 e b = .ok (tid, b1))
    (hx2 : Tag.tryFrom (intCastU8 tid) = .ok etag)
    (hx3 : read_i32 e b1 = .ok (len, b2))
    (hcond : ¬ (len < 0 ∨ len > 32767))
    (hx4 : read_list_elems e etag len.toNat b2 = .ok (xs, b3)) :
    read_list e b = .ok (.list xs, b3) := by
  obtain ⟨hp4, hx4b⟩ := read_list_elems_aux_inv hx4
  have h1 := readSigned_length 1 e b tid b1 hx1
  have h3 := readSigned_length 4 e b1 len b2 hx3
  unfold read_list
  rw [readListAux_ok hp4 (by omega) hx1 hx2 hx3 hcond hx4b]

theorem read_list_err {e : Endian} {b b1 b2 : List Nat} {tid len : Int} {etag : Tag}
    (hx1 : read_i8 e b = .ok (tid, b1))
    (hx2 : Tag.tryFrom (intCastU8 tid) = .ok etag)
    (hx3 : read_i32 e b1 = .ok (len, b2))
    (hcond : len < 0 ∨ len > 32767) :
    read_list e b = .error (.invalidStringLength (intCastUsize len)) := by
  unfold read_list
  rw [readListAux_badLength hx1 hx2 hx3 hcond]

theorem read_compound_entries_end {e : Endian} {acc : List (List Nat × Value)}
    {b b1 : List Nat} {tid : Int}
    (hx1 : read_i8 e b = .ok (tid, b1))
    (hx2 : Tag.tryFrom (intCastU8 tid) = .ok .end_) :
    read_compound_entries e acc b = .ok (acc, b1) := by
  have h1 := readSigned_length 1 e b tid b1 hx1
  unfold read_compound_entries
  rw [readCompoundEntriesAux_end (by omega) hx1 hx2]

theorem read_compound_entries_step {e : Endian} {acc : List (List Nat × Value)}
    {b b1 b2 b3 b4 : List Nat} {tid : Int} {tag : Tag} {name : List Nat} {v : Value}
    {m : List (List Nat × Value)}
    (hx1 : read_i8 e b = .ok (tid, b1))
    (hx2 : Tag.tryFrom (intCastU8 tid) = .ok tag)
    (hne : tag ≠ .end_)
    (hx3 : read_string e b1 = .ok (name, b2))
    (hx4 : read_value e tag b2 = .ok (v, b3))
    (hx5 : read_compound_entries e (mapInsert name v acc) b3 = .ok (m, b4)) :
    read_compound_entries e acc b = .ok (m, b4) := by
  obtain ⟨hp4, hx4b⟩ := read_value_aux_inv hx4
  obtain ⟨hp5, hx5b⟩ := read_compound_entries_aux_inv hx5
  have h1 := readSigned_length 1 e b tid b1 hx1
  have h3 := read_string_length e b1 name b2 hx3
  unfold read_compound_entries
  rw [readCompoundEntriesAux_step hp4 hp5 (by omega) hx1 hx2 hne hx3 hx4b hx5b]

theorem read_compound_ok {e : Endian} {b r : List Nat} {m : List (List Nat × Value)}
    (hx : read_compound_entries e [] b = .ok (m, r)) :
    read_compound e b = .ok (.compound m, r) := by
  obtain ⟨hp, hxb⟩ := read_compound_entries_aux_inv hx
  unfold read_compound
  rw [readCompoundAux_ok hp hxb]

theorem read_list_wrap_err {e : Endian} {b : List Nat} {err : NBTError}
    (hx : readListAux e b = .error err) : read_list e b = .error err := by
  unfold read_list
  rw [hx]

/-! ## The round-trip induction -/

/-- Round-trip property of a single value. -/
def RoundTrips (e : Endian) (v : Value) : Prop :=
  ∃ bs, write_value e v = .ok bs ∧
    ∀ rest, read_value e v.tag (bs ++ rest) = .ok (v, rest)

theorem write_values_roundtrip (e : Endian) (t : Tag) :
    ∀ xs : List Value,
      (∀ y ∈ xs, y.tag = t) →
      (∀ y ∈ xs, RoundTrips e y) →
      ∃ payload, write_values e xs = .ok payload ∧
        ∀ rest, read_list_elems e t xs.length (payload ++ rest) = .ok (xs, rest) := by
  intro xs
  induction xs with
  | nil =>
    intro _ _
    refine ⟨[], write_values_nil e, ?_⟩
    intro rest
    simp only [List.length_nil, List.nil_append, read_list_elems_zero]
  | cons x xs2 ih =>
    intro htags hrt
    obtain ⟨bs, hw, hr⟩ := hrt x (by simp)
    obtain ⟨payload, hwv, hrv⟩ :=
      ih (fun y hy => htags y (List.mem_cons_of_mem _ hy))
        (fun y hy => hrt y (List.mem_cons_of_mem _ hy))
    refine ⟨bs ++ payload, ?_, ?_⟩
    · rw [write_values_cons, hw, hwv]
    · intro rest
      simp only [List.length_cons, List.append_assoc]
      have hx : read_value e t (bs ++ (payload ++ rest)) = .ok (x, payload ++ rest) := by
        rw [← htags x (by simp)]
        exact hr (payload ++ rest)
      exact read_list_elems_succ hx (hrv rest)

theorem write_entries_roundtrip (e : Endian) :
    ∀ es : List (List Nat × Value),
      validEntries es = true →
      (∀ kv ∈ es, RoundTrips e kv.2) →
      ∃ bs, write_entries e es = .ok bs ∧
        ∀ acc rest, read_compound_entries e acc (bs ++ (write_i8 e 0 ++ rest)) =
          .ok (insertAll acc es, rest) := by
  intro es
  induction es with
  | nil =>
    intro _ _
    refine ⟨[], write_entries_nil e, ?_⟩
    intro acc rest
    simp only [List.nil_append, insertAll]
    exact read_compound_entries_end
      (read_i8_write e 0 rest (by norm_num) (by norm_num))
      (by decide)
  | cons kv es2 ih =>
    obtain ⟨k, v⟩ := kv
    intro hval hrt
    obtain ⟨hklen, hkutf, hne, hv⟩ := validEntries_forall hval (k, v) (by simp)
    have hval2 : validEntries es2 = true := by
      rw [validEntries_cons] at hval
      simp only [Bool.and_eq_true] at hval
      exact hval.2
    obtain ⟨vb, hwv, hrv⟩ := hrt (k, v) (by simp)
    obtain ⟨bs2, hwe, hre⟩ := ih hval2 (fun kv2 hkv => hrt kv2 (List.mem_cons_of_mem _ hkv))
    refine ⟨write_i8 e ((v.tag.toU8 : Int)) ++ write_string e k ++ vb ++ bs2, ?_, ?_⟩
    · rw [write_entries_cons, hwv, hwe]
    · intro acc rest
      simp only [List.append_assoc]
      have hpow : ((2 : Int) ^ 7) = 128 := by norm_num
      have hle12 := Tag.toU8_le v.tag
      have hle12i : ((v.tag.toU8 : Nat) : Int) ≤ 12 := by exact_mod_cast hle12
      have htag8 : read_i8 e (write_i8 e ((v.tag.toU8 : Int))
          ++ (write_string e k ++ (vb ++ (bs2 ++ (write_i8 e 0 ++ rest)))))
          = .ok ((v.tag.toU8 : Int),
              write_string e k ++ (vb ++ (bs2 ++ (write_i8 e 0 ++ rest)))) := by
        apply read_i8_write
        · omega
        · omega
      have hcast : Tag.tryFrom (intCastU8 ((v.tag.toU8 : Int))) = .ok v.tag := by
        rw [intCastU8_coe _ (by omega)]
        exact Tag.tryFrom_toU8 v.tag
      have hstr : read_string e (write_string e k ++ (vb ++ (bs2 ++ (write_i8 e 0 ++ rest))))
          = .ok (k, vb ++ (bs2 ++ (write_i8 e 0 ++ rest))) :=
        read_string_write e k _ hklen hkutf
      have hval4 := hrv (bs2 ++ (write_i8 e 0 ++ rest))
      have hrec := hre (mapInsert k v acc) rest
      rw [insertAll]
      exact read_compound_entries_step htag8 hcast hne hstr hval4 hrec


theorem roundTrips_of_valid (e : Endian) :
    ∀ N : Nat, ∀ v : Value, sizeOf v ≤ N → valid v = true → RoundTrips e v := by
  intro N
  induction N with
  | zero =>
    intro v hs _
    have := value_sizeOf_pos v
    omega
  | succ N ih =>
    intro v hs hv
    cases v with
    | end_ =>
      refine ⟨[], by simp, ?_⟩
      intro rest
      exact read_value_end e ([] ++ rest)
    | byte x =>
      rw [valid_byte] at hv
      simp only [Bool.and_eq_true, decide_eq_true_eq] at hv
      refine ⟨write_i8 e x, by simp, ?_⟩
      intro rest
      exact read_value_byte (read_i8_write e x rest hv.1 hv.2)
    | short x =>
      rw [valid_short] at hv
      simp only [Bool.and_eq_true, decide_eq_true_eq] at hv
      refine ⟨write_i16 e x, by simp, ?_⟩
      intro rest
      exact read_value_short (read_i16_write e x rest hv.1 hv.2)
    | int x =>
      rw [valid_int] at hv
      simp only [Bool.and_eq_true, decide_eq_true_eq] at hv
      refine ⟨write_i32 e x, by simp, ?_⟩
      intro rest
      exact read_value_int (read_i32_write e x rest hv.1 hv.2)
    | long x =>
      rw [valid_long] at hv
      simp only [Bool.and_eq_true, decide_eq_true_eq] at hv
      refine ⟨write_i64 e x, by simp, ?_⟩
      intro rest
      exact read_value_long (read_i64_write e x rest hv.1 hv.2)
    | float bits =>
      rw [valid_float] at hv
      simp only [decide_eq_true_eq] at hv
      refine ⟨write_f32 e bits, by simp, ?_⟩
      intro rest
      exact read_value_float (read_f32_write e bits rest hv)
    | double bits =>
      rw [valid_double] at hv
      simp only [decide_eq_true_eq] at hv
      refine ⟨write_f64 e bits, by simp, ?_⟩
      intro rest
      exact read_value_double (read_f64_write e bits rest hv)
    | byteArray l =>
      rw [valid_byteArray] at hv
      simp only [Bool.and_eq_true, decide_eq_true_eq, List.all_eq_true] at hv
      obtain ⟨hlen, hall⟩ := hv
      refine ⟨write_byte_array e l, by simp, ?_⟩
      intro rest
      exact read_value_byteArray (read_byte_array_write e l rest hlen hall)
    | string str =>
      rw [valid_string] at hv
      simp only [Bool.and_eq_true, decide_eq_true_eq] at hv
      refine ⟨write_string e str, by simp, ?_⟩
      intro rest
      exact read_value_string (read_string_write e str rest hv.1 hv.2)
    | intArray l =>
      rw [valid_intArray] at hv
      simp only [Bool.and_eq_true, decide_eq_true_eq, List.all_eq_true] at hv
      obtain ⟨hlen, hall⟩ := hv
      refine ⟨write_int_array e l, by simp, ?_⟩
      intro rest
      exact read_value_intArray (read_int_array_write e l rest hlen hall)
    | longArray l =>
      rw [valid_longArray] at hv
      simp only [Bool.and_eq_true, decide_eq_true_eq, List.all_eq_true] at hv
      obtain ⟨hlen, hall⟩ := hv
      refine ⟨write_long_array e l, by simp, ?_⟩
      intro rest
      exact read_value_longArray (read_long_array_write e l rest hlen hall)
    | list xs =>
      rw [valid_list] at hv
      simp only [Bool.and_eq_true, decide_eq_true_eq] at hv
      obtain ⟨⟨hlen, hhomog⟩, hvl⟩ := hv
      cases xs with
      | nil =>
        refine ⟨write_i8 e 0 ++ write_i32 e 0, ?_, ?_⟩
        · rw [write_value_list, write_list_nil]
        · intro rest
          rw [show (Value.list ([] : List Value)).tag = Tag.list from rfl,
            read_value_tag_list, List.append_assoc]
          exact read_list_ok
            (read_i8_write e 0 _ (by norm_num) (by norm_num))
            (by decide)
            (read_i32_write e 0 rest (by norm_num) (by norm_num))
            (by decide)
            (read_list_elems_zero e .end_ rest)
      | cons x xs2 =>
        have htags := homogeneous_forall hhomog
        have helems : ∀ y ∈ x :: xs2, RoundTrips e y := by
          intro y hy
          refine ih y ?_ (validList_forall hvl y hy)
          have h1 : sizeOf y < sizeOf (x :: xs2) := List.sizeOf_lt_of_mem hy
          have h2 : sizeOf (Value.list (x :: xs2)) = 1 + sizeOf (x :: xs2) := by simp_arith
          omega
        obtain ⟨payload, hwv, hrv⟩ := write_values_roundtrip e x.tag (x :: xs2) htags helems
        have hmis := firstMismatch_none x.tag (x :: xs2) htags 0
        refine ⟨write_i8 e ((x.tag.toU8 : Int))
          ++ write_i32 e ((((x :: xs2).length : Nat) : Int)) ++ payload, ?_, ?_⟩
        · rw [write_value_list, write_list_cons, hmis, hwv]
        · intro rest
          rw [show (Value.list (x :: xs2)).tag = Tag.list from rfl, read_value_tag_list]
          simp only [List.append_assoc]
          have hle12 := Tag.toU8_le x.tag
          have hlei : ((x.tag.toU8 : Nat) : Int) ≤ 12 := by exact_mod_cast hle12
          have hpow7 : ((2 : Int) ^ 7) = 128 := by norm_num
          have hpow31 : ((2 : Int) ^ 31) = 2147483648 := by norm_num
          have hlenI : ((((x :: xs2).length : Nat)) : Int) ≤ 32767 := by exact_mod_cast hlen
          have hlen0 : (0 : Int) ≤ (((x :: xs2).length : Nat) : Int) := by positivity
          refine read_list_ok
            (read_i8_write e _ _ (by omega) (by omega))
            (by rw [intCastU8_coe _ (by omega)]; exact Tag.tryFrom_toU8 x.tag)
            (read_i32_write e _ (payload ++ rest) (by omega) (by omega))
            (by omega)
            ?_
          exact hrv rest
    | compound es =>
      rw [valid_compound] at hv
      simp only [Bool.and_eq_true] at hv
      obtain ⟨hsort, hval⟩ := hv
      have hentries : ∀ kv ∈ es, RoundTrips e kv.2 := by
        intro kv hkv
        refine ih kv.2 ?_ (validEntries_forall hval kv hkv).2.2.2
        have h1 : sizeOf kv < sizeOf es := List.sizeOf_lt_of_mem hkv
        have h2 : sizeOf (Value.compound es) = 1 + sizeOf es := by simp_arith
        have h3 : sizeOf kv.2 < sizeOf kv := by
          obtain ⟨k2, v2⟩ := kv
          simp_arith
        omega
      obtain ⟨bs2, hwe, hre⟩ := write_entries_roundtrip e es hval hentries
      refine ⟨bs2 ++ write_i8 e 0, ?_, ?_⟩
      · rw [write_value_compound, write_compound_eq, hwe]
      · intro rest
        rw [show (Value.compound es).tag = Tag.compound from rfl,
          read_value_tag_compound, List.append_assoc]
        have hthis := hre [] rest
        rw [insertAll_nil_sorted es hsort] at hthis
        exact read_compound_ok hthis


theorem write_read_tag (e : Endian) (name : Option (List Nat)) (v : Value)
    (hv : valid v = true) (hn : validName name = true) :
    ∃ bs, write_tag e name v = .ok bs ∧
      ∀ rest, read_tag e (bs ++ rest) = .ok ((name, v), rest) := by
  obtain ⟨vb, hwv, hrv⟩ := roundTrips_of_valid e (sizeOf v) v (le_refl _) hv
  have htagu8 : v.tag.toU8 < 2 ^ 8 := by
    have := Tag.toU8_le v.tag
    omega
  cases name with
  | none =>
    refine ⟨write_u8 e v.tag.toU8 ++ write_string e [] ++ vb, ?_, ?_⟩
    · simp only [write_tag, hwv]
    · intro rest
      unfold read_tag
      simp only [List.append_assoc]
      simp only [read_u8_write e v.tag.toU8 _ htagu8]
      simp only [Tag.tryFrom_toU8]
      simp only [read_string_write e [] _ (by simp) rfl]
      simp only [List.isEmpty_nil, if_pos]
      simp only [hrv rest]
  | some s =>
    unfold validName at hn
    simp only [Bool.and_eq_true, decide_eq_true_eq] at hn
    obtain ⟨⟨hne, hlen⟩, hutf⟩ := hn
    refine ⟨write_u8 e v.tag.toU8 ++ write_string e s ++ vb, ?_, ?_⟩
    · simp only [write_tag, hwv]
    · intro rest
      unfold read_tag
      simp only [List.append_assoc]
      simp only [read_u8_write e v.tag.toU8 _ htagu8]
      simp only [Tag.tryFrom_toU8]
      simp only [read_string_write e s _ hlen hutf]
      have hempty : s.isEmpty = false := by
        cases s with
        | nil => exact absurd rfl hne
        | cons a as => rfl
      simp only [hempty]
      simp only [hrv rest]
      simp


/-! ## Characterization of the homogeneity scan -/

theorem homogeneous_of_forall {x : Value} {xs : List Value}
    (h : ∀ y ∈ x :: xs, y.tag = x.tag) : homogeneous (x :: xs) = true := by
  rw [homogeneous, List.all_eq_true]
  intro y hy
  simp [h y (List.mem_cons_of_mem _ hy)]

theorem firstMismatch_some_spec (t : Tag) :
    ∀ (l : List Value) (s i : Nat) (a : Tag),
      firstMismatch t s l = some (i, a) →
      s ≤ i ∧ ∃ vi, l.get? (i - s) = some vi ∧ vi.tag = a ∧ a ≠ t ∧
        ∀ j vj, j < i - s → l.get? j = some vj → vj.tag = t := by
  intro l
  induction l with
  | nil => intro s i a h; simp [firstMismatch] at h
  | cons x xs ih =>
    intro s i a h
    rw [firstMismatch] at h
    split at h
    next hne =>
      simp only [Option.some.injEq, Prod.mk.injEq] at h
      obtain ⟨hi, ha⟩ := h
      subst hi
      subst ha
      refine ⟨le_refl _, x, ?_, rfl, hne, ?_⟩
      · simp
      · intro j vj hj _
        omega
    next heq =>
      simp only [Decidable.not_not] at heq
      obtain ⟨hs, vi, hget, htag, hne, hprev⟩ := ih (s + 1) i a h
      refine ⟨by omega, vi, ?_, htag, hne, ?_⟩
      · rw [show i - s = (i - (s + 1)) + 1 by omega]
        simpa using hget
      · intro j vj hj hgj
        cases j with
        | zero =>
          simp only [List.get?_cons_zero, Option.some.injEq] at hgj
          subst hgj
          exact heq
        | succ j2 =>
          simp only [List.get?_cons_succ] at hgj
          exact hprev j2 vj (by omega) hgj


/-! ## The validity predicate exactly as claim C1 words it

`specValidC1` transcribes only the conditions the claim itself lists for a
"valid Value tree": every non-empty list homogeneous, every string (and
compound key) of byte length at most 65535, every list of length at most
32767; finite depth is inherent in the inductive `Value`.  It is the
claim's own notion, kept separate from `valid` so that the counterexample
can exhibit a tree that the claim admits but that does not round-trip. -/

mutual

def specValidC1 : Value → Bool
  | .end_ => true
  | .byte _ => true
  | .short _ => true
  | .int _ => true
  | .long _ => true
  | .float _ => true
  | .double _ => true
  | .byteArray _ => true
  | .string s => decide (s.length ≤ 65535)
  | .list xs => decide (xs.length ≤ 32767) && homogeneous xs && specValidC1List xs
  | .compound es => specValidC1Entries es
  | .intArray _ => true
  | .longArray _ => true
termination_by v => (sizeOf v, 1)

def specValidC1List : List Value → Bool
  | [] => true
  | x :: xs => specValidC1 x && specValidC1List xs
termination_by l => (sizeOf l, 0)

def specValidC1Entries : List (List Nat × Value) → Bool
  | [] => true
  | (k, v) :: es => decide (k.length ≤ 65535) && specValidC1 v && specValidC1Entries es
termination_by l => (sizeOf l, 0)

end


/-! ## Claim C1 -/

/-- C1, counterexample: the claim as stated is false.  The tree
`Compound {"a" ↦ End}` satisfies every validity condition the claim lists
(`specValidC1`), yet under big-endian order it encodes (with no name) to
`[10, 0, 0, 0, 0, 1, 97, 0]`, whose entry tag byte `0` (the `End`
discriminant) is read back as the compound terminator: decoding returns
the empty compound with four unconsumed bytes rather than the original
tree.  (Little-endian gives the same bytes for this input.) -/
theorem c1_counterexample :
    specValidC1 (Value.compound [([97], .end_)]) = true ∧
    write_tag .big none (Value.compound [([97], .end_)])
      = .ok [10, 0, 0, 0, 0, 1, 97, 0] ∧
    read_tag .big [10, 0, 0, 0, 0, 1, 97, 0]
      = .ok ((none, Value.compound []), [0, 1, 97, 0]) ∧
    Value.compound ([] : List (List Nat × Value)) ≠ Value.compound [([97], .end_)] := by
  refine ⟨?_, ?_, ?_, ?_⟩
  · simp only [specValidC1, specValidC1Entries]
    norm_num
  · have h1 : write_entries .big [([97], Value.end_)] = .ok [0, 0, 1, 97] := by
      simp only [write_entries_cons, write_value_end, write_entries_nil]
      rfl
    have h2 : write_value .big (Value.compound [([97], .end_)]) = .ok [0, 0, 1, 97, 0] := by
      rw [write_value_compound, write_compound_eq]
      simp only [h1]
      rfl
    simp only [write_tag, h2]
    rfl
  · have e1 : read_u8 .big [10, 0, 0, 0, 0, 1, 97, 0] = .ok (10, [0, 0, 0, 0, 1, 97, 0]) := rfl
    have e2 : Tag.tryFrom 10 = .ok .compound := rfl
    have e3 : read_string .big [0, 0, 0, 0, 1, 97, 0] = .ok ([], [0, 0, 1, 97, 0]) := rfl
    have e4 : read_i8 .big [0, 0, 1, 97, 0] = .ok (0, [0, 1, 97, 0]) := rfl
    have e5 : Tag.tryFrom (intCastU8 0) = .ok .end_ := rfl
    have e6 : read_compound_entries .big [] [0, 0, 1, 97, 0] = .ok ([], [0, 1, 97, 0]) :=
      read_compound_entries_end e4 e5
    have e7 : read_value .big .compound [0, 0, 1, 97, 0]
        = .ok (Value.compound [], [0, 1, 97, 0]) := by
      rw [read_value_tag_compound]
      exact read_compound_ok e6
    unfold read_tag
    simp only [e1, e2, e3, e7]
    rfl
  · simp

/-- C1, amended: for every value tree valid in the full sense (the claim's
listed conditions plus the type-level invariants of the Rust `Value` —
scalar ranges, UTF-8 strings, `u32`-representable array lengths, sorted
unique compound keys — and, as the counterexample forces, no `End` value
stored as a compound entry) and every optional non-empty name, decoding
the bytes produced by `write_tag` yields exactly the same name and value,
under big- and little-endian order alike, leaving any trailing bytes
unconsumed. -/
theorem c1_roundtrip_amended (e : Endian) (name : Option (List Nat)) (v : Value)
    (hv : valid v = true) (hn : validName name = true) :
    ∃ bs, write_tag e name v = .ok bs ∧
      ∀ rest, read_tag e (bs ++ rest) = .ok ((name, v), rest) :=
  write_read_tag e name v hv hn

/-- C1, witness: the amended round-trip instantiated at a concrete named
byte value under little-endian order. -/
theorem c1_witness :
    valid (Value.byte 5) = true ∧ validName (some [66]) = true ∧
    ∃ bs, write_tag .little (some [66]) (Value.byte 5) = .ok bs ∧
      ∀ rest, read_tag .little (bs ++ rest) = .ok ((some [66], Value.byte 5), rest) :=
  ⟨by norm_num, by decide,
    c1_roundtrip_amended .little (some [66]) (Value.byte 5)
      (by norm_num) (by decide)⟩


/-! ## Claim C2 -/

theorem write_tag_eq (e : Endian) (name : Option (List Nat)) (v : Value) :
    write_tag e name v =
      match write_value e v with
      | .error err => .error err
      | .ok vb => .ok (write_u8 e v.tag.toU8
          ++ write_string e (match name with | some n => n | none => []) ++ vb) := by
  unfold write_tag
  rfl

/-- The little-endian encoding of the test scenario entry
`("BSTVVL", List[Int(6969), Int(696969)])`, computed once and shared by
the C2 counterexample and its amended claim. -/
theorem bstvvl_encode :
    write_tag .little (some [66, 83, 84, 86, 86, 76])
        (Value.list [.int 6969, .int 696969])
      = .ok [0x09, 0x06, 0x00, 0x42, 0x53, 0x54, 0x56, 0x56, 0x4C,
          0x03, 0x02, 0x00, 0x00, 0x00, 0x39, 0x1B, 0x00, 0x00,
          0x89, 0xA2, 0x0A, 0x00] := by
  have hfm : firstMismatch (Value.int 6969).tag 0 [Value.int 6969, Value.int 696969]
      = none := rfl
  have hwv : write_values .little [Value.int 6969, Value.int 696969]
      = .ok [0x39, 0x1B, 0x00, 0x00, 0x89, 0xA2, 0x0A, 0x00] := by
    rw [write_values_cons]
    rw [write_value_int]
    rw [write_values_cons]
    rw [write_value_int]
    rw [write_values_nil]
    rfl
  have hwl : write_value .little (Value.list [.int 6969, .int 696969])
      = .ok [0x03, 0x02, 0x00, 0x00, 0x00, 0x39, 0x1B, 0x00, 0x00,
          0x89, 0xA2, 0x0A, 0x00] := by
    rw [write_value_list, write_list_cons]
    rw [hfm]
    rw [hwv]
    rfl
  rw [write_tag_eq]
  rw [hwl]
  rfl

/-- C2, counterexample: the claim as stated is false.  Encoding the named
entry `("BSTVVL", List[Int(6969), Int(696969)])` little-endian produces a
byte sequence whose last four bytes are `89 A2 0A 00` (696969 = 0xAA289),
not the `09 A9 0A 00` (= 698633) the spec transcribes; the produced bytes
differ from the spec's sequence at the 19th and 20th bytes, so the
encoder does not produce the claimed sequence. -/
theorem c2_counterexample :
    write_tag .little (some [66, 83, 84, 86, 86, 76])
        (Value.list [.int 6969, .int 696969])
      = .ok [0x09, 0x06, 0x00, 0x42, 0x53, 0x54, 0x56, 0x56, 0x4C,
          0x03, 0x02, 0x00, 0x00, 0x00, 0x39, 0x1B, 0x00, 0x00,
          0x89, 0xA2, 0x0A, 0x00] ∧
    ([0x09, 0x06, 0x00, 0x42, 0x53, 0x54, 0x56, 0x56, 0x4C,
      0x03, 0x02, 0x00, 0x00, 0x00, 0x39, 0x1B, 0x00, 0x00,
      0x89, 0xA2, 0x0A, 0x00] : List Nat)
      ≠ [0x09, 0x06, 0x00, 0x42, 0x53, 0x54, 0x56, 0x56, 0x4C,
          0x03, 0x02, 0x00, 0x00, 0x00, 0x39, 0x1B, 0x00, 0x00,
          0x09, 0xA9, 0x0A, 0x00] :=
  ⟨bstvvl_encode, by decide⟩

/-- C2, amended: same scenario with the arithmetically correct bytes for
696969 (little-endian `89 A2 0A 00` rather than the spec's `09 A9 0A 00`):
encoding produces exactly this sequence, and decoding it reproduces the
original name and value with no bytes left over. -/
theorem c2_concrete_amended :
    write_tag .little (some [66, 83, 84, 86, 86, 76])
        (Value.list [.int 6969, .int 696969])
      = .ok [0x09, 0x06, 0x00, 0x42, 0x53, 0x54, 0x56, 0x56, 0x4C,
          0x03, 0x02, 0x00, 0x00, 0x00, 0x39, 0x1B, 0x00, 0x00,
          0x89, 0xA2, 0x0A, 0x00] ∧
    read_tag .little [0x09, 0x06, 0x00, 0x42, 0x53, 0x54, 0x56, 0x56, 0x4C,
        0x03, 0x02, 0x00, 0x00, 0x00, 0x39, 0x1B, 0x00, 0x00,
        0x89, 0xA2, 0x0A, 0x00]
      = .ok ((some [66, 83, 84, 86, 86, 76], Value.list [.int 6969, .int 696969]), []) := by
  refine ⟨bstvvl_encode, ?_⟩
  obtain ⟨bs, hw, hr⟩ := write_read_tag .little (some [66, 83, 84, 86, 86, 76])
    (Value.list [.int 6969, .int 696969]) (by norm_num [homogeneous, Value.tag]) (by decide)
  have henc := bstvvl_encode
  rw [hw] at henc
  have hbs := (Except.ok.injEq _ _).mp henc
  have hfinal := hr []
  rw [hbs] at hfinal
  simpa using hfinal


/-! ## Claim C3 -/

/-- C3: the tag bijection.  For every byte `b`: if `b ≤ 12` then
`Tag::try_from(b)` succeeds with a tag whose discriminant is `b` again,
and `Value::tag()` of a value built from that kind (`mkValue`) returns
that same tag, so its discriminant is `b`; if `13 ≤ b ≤ 255` then
`Tag::try_from(b)` fails with `InvalidTagID(b)`. -/
theorem c3_tag_bijection (b : Nat) (hb : b < 256) :
    (b ≤ 12 → ∃ t : Tag, Tag.tryFrom b = .ok t ∧ t.toU8 = b
      ∧ (mkValue t).tag = t ∧ (mkValue t).tag.toU8 = b) ∧
    (13 ≤ b → Tag.tryFrom b = .error (.invalidTagID b)) := by
  constructor
  · intro h12
    interval_cases b
    · exact ⟨.end_, by decide, by decide, by decide, by decide⟩
    · exact ⟨.byte, by decide, by decide, by decide, by decide⟩
    · exact ⟨.short, by decide, by decide, by decide, by decide⟩
    · exact ⟨.int, by decide, by decide, by decide, by decide⟩
    · exact ⟨.long, by decide, by decide, by decide, by decide⟩
    · exact ⟨.float, by decide, by decide, by decide, by decide⟩
    · exact ⟨.double, by decide, by decide, by decide, by decide⟩
    · exact ⟨.byteArray, by decide, by decide, by decide, by decide⟩
    · exact ⟨.string, by decide, by decide, by decide, by decide⟩
    · exact ⟨.list, by decide, by decide, by decide, by decide⟩
    · exact ⟨.compound, by decide, by decide, by decide, by decide⟩
    · exact ⟨.intArray, by decide, by decide, by decide, by decide⟩
    · exact ⟨.longArray, by decide, by decide, by decide, by decide⟩
  · intro h13
    unfold Tag.tryFrom
    split
    all_goals first
      | rfl
      | omega

/-- C3, witness: both directions at concrete bytes 9 and 13. -/
theorem c3_witness :
    (∃ t : Tag, Tag.tryFrom 9 = .ok t ∧ t.toU8 = 9
      ∧ (mkValue t).tag = t ∧ (mkValue t).tag.toU8 = 9) ∧
    Tag.tryFrom 13 = .error (.invalidTagID 13) :=
  ⟨(c3_tag_bijection 9 (by decide)).1 (by decide),
    (c3_tag_bijection 13 (by decide)).2 (by decide)⟩

/-! ## Claim C4 -/

theorem firstMismatch_none_forall (t : Tag) :
    ∀ (l : List Value) (s : Nat), firstMismatch t s l = none → ∀ y ∈ l, y.tag = t := by
  intro l
  induction l with
  | nil => intro s _ y hy; cases hy
  | cons x xs ih =>
    intro s h y hy
    rw [firstMismatch] at h
    split at h
    next => cases h
    next heq =>
      simp only [Decidable.not_not] at heq
      rcases List.mem_cons.mp hy with hy | hy
      · subst hy
        exact heq
      · exact ih (s + 1) h y hy

/-- C4: heterogeneous list rejection.  For every non-empty list value
whose elements are not all of the first element's kind, `write_list`
fails — in this pure model an error result carries no output bytes, and
in the source the homogeneity scan precedes every write of the list —
and the failure is the `Custom` message naming the first mismatching
index `i`, the expected kind (the first element's tag) and the actual
kind at index `i`. -/
theorem c4_heterogeneous_list (e : Endian) (x : Value) (xs : List Value)
    (h : homogeneous (x :: xs) = false) :
    ∃ (i : Nat) (actual : Tag) (vi : Value),
      (x :: xs).get? i = some vi ∧ vi.tag = actual ∧ actual ≠ x.tag ∧
      (∀ j vj, j < i → (x :: xs).get? j = some vj → vj.tag = x.tag) ∧
      write_list e (.list (x :: xs)) = .error (.custom (mismatchMsg i x.tag actual)) := by
  cases hfm : firstMismatch x.tag 0 (x :: xs) with
  | none =>
    exfalso
    have hall : ∀ y ∈ x :: xs, y.tag = x.tag :=
      firstMismatch_none_forall x.tag (x :: xs) 0 hfm
    rw [homogeneous_of_forall hall] at h
    cases h
  | some p =>
    obtain ⟨i, actual⟩ := p
    obtain ⟨hs, vi, hget, htag, hne, hprev⟩ :=
      firstMismatch_some_spec x.tag (x :: xs) 0 i actual hfm
    refine ⟨i, actual, vi, by simpa using hget, htag, hne, ?_, ?_⟩
    · intro j vj hj hgj
      exact hprev j vj (by omega) hgj
    · rw [write_list_cons, hfm]


/-- C4, witness: the heterogeneous list `[Byte 0, Short 0]` under
big-endian order, with the mismatch at index 1. -/
theorem c4_witness :
    ∃ (i : Nat) (actual : Tag) (vi : Value),
      ([Value.byte 0, Value.short 0] : List Value).get? i = some vi ∧ vi.tag = actual ∧
      actual ≠ (Value.byte 0).tag ∧
      (∀ j vj, j < i → ([Value.byte 0, Value.short 0] : List Value).get? j = some vj →
        vj.tag = (Value.byte 0).tag) ∧
      write_list .big (.list [Value.byte 0, Value.short 0])
        = .error (.custom (mismatchMsg i (Value.byte 0).tag actual)) :=
  c4_heterogeneous_list .big (Value.byte 0) [Value.short 0] (by decide)

/-! ## Claim C5 -/

/-- C5: list count bounds on decode.  For every list header declaring a
valid element-tag byte and a count that is negative or exceeds 32767,
`read_list` fails with the invalid-length failure (the reused
`InvalidStringLength` kind, carrying `count as usize`), and the result
does not depend on the bytes after the header — the element bytes `rest`
are arbitrary and unconsumed. -/
theorem c5_list_count_bounds (e : Endian) (etag : Tag) (count : Int) (rest : List Nat)
    (hc : count < 0 ∨ count > 32767)
    (hlo : -(2 ^ 31) ≤ count) (hhi : count < 2 ^ 31) :
    read_list e (write_i8 e ((etag.toU8 : Int)) ++ (write_i32 e count ++ rest))
      = .error (.invalidStringLength (intCastUsize count)) := by
  have hle12 := Tag.toU8_le etag
  have hlei : ((etag.toU8 : Nat) : Int) ≤ 12 := by exact_mod_cast hle12
  have hpow7 : ((2 : Int) ^ 7) = 128 := by norm_num
  have hx2 : Tag.tryFrom (intCastU8 ((etag.toU8 : Int))) = .ok etag := by
    rw [intCastU8_coe _ (by omega)]
    exact Tag.tryFrom_toU8 etag
  exact read_list_err (read_i8_write e _ _ (by omega) (by omega)) hx2
    (read_i32_write e count rest hlo hhi) hc

/-- C5, witness: a little-endian list header with element tag `Byte` and
count `-1`, followed by three junk bytes, fails with the invalid-length
failure carrying `(-1) as usize = 2^64 - 1`. -/
theorem c5_witness :
    read_list .little
        (write_i8 .little ((Tag.byte.toU8 : Int)) ++ (write_i32 .little (-1) ++ [7, 7, 7]))
      = .error (.invalidStringLength (intCastUsize (-1))) :=
  c5_list_count_bounds .little .byte (-1) [7, 7, 7] (Or.inl (by norm_num))
    (by norm_num) (by norm_num)


/-! ## Claim C6 -/

/-- C6: compound key uniqueness.  For every compound map (in its
`BTreeMap` shape invariant, strictly sorted keys), inserting `v1` then
`v2` under the same key via `Value::insert` succeeds and leaves exactly
one entry for that key, bound to `v2`; and `read_compound` collapses
duplicate wire keys to the last value read, shown on the wire bytes of
`{"a": Byte 1}{"a": Byte 2}`. -/
theorem c6_compound_key_uniqueness :
    (∀ (m : List (List Nat × Value)) (k : List Nat) (v1 v2 : Value),
      sortedEntries m = true →
      ∃ m1 m2, (Value.compound m).insert k v1 = .ok (.compound m1) ∧
        (Value.compound m1).insert k v2 = .ok (.compound m2) ∧
        countKey k m2 = 1 ∧ lookupKey k m2 = some v2) ∧
    read_compound .big [1, 0, 1, 97, 1, 1, 0, 1, 97, 2, 0]
      = .ok (.compound [([97], Value.byte 2)], []) := by
  constructor
  · intro m k v1 v2 hs
    refine ⟨mapInsert k v1 m, mapInsert k v2 (mapInsert k v1 m), rfl, rfl, ?_, ?_⟩
    · exact countKey_mapInsert_sorted k v2 _ (mapInsert_sorted k v1 m hs)
    · exact lookupKey_mapInsert k v2 _
  · have e1 : read_i8 .big [1, 0, 1, 97, 1, 1, 0, 1, 97, 2, 0]
        = .ok (1, [0, 1, 97, 1, 1, 0, 1, 97, 2, 0]) := rfl
    have e2 : Tag.tryFrom (intCastU8 1) = .ok .byte := rfl
    have e3 : read_string .big [0, 1, 97, 1, 1, 0, 1, 97, 2, 0]
        = .ok ([97], [1, 1, 0, 1, 97, 2, 0]) := rfl
    have e4 : read_value .big .byte [1, 1, 0, 1, 97, 2, 0]
        = .ok (.byte 1, [1, 0, 1, 97, 2, 0]) := read_value_byte rfl
    have e5 : read_i8 .big [1, 0, 1, 97, 2, 0] = .ok (1, [0, 1, 97, 2, 0]) := rfl
    have e6 : read_string .big [0, 1, 97, 2, 0] = .ok ([97], [2, 0]) := rfl
    have e7 : read_value .big .byte [2, 0] = .ok (.byte 2, [0]) := read_value_byte rfl
    have e8 : read_i8 .big [0] = .ok (0, []) := rfl
    have e9 : Tag.tryFrom (intCastU8 0) = .ok .end_ := rfl
    have hstep2 : read_compound_entries .big (mapInsert [97] (Value.byte 1) [])
        [1, 0, 1, 97, 2, 0] = .ok ([([97], Value.byte 2)], []) := by
      have hend : read_compound_entries .big [([97], Value.byte 2)] [0]
          = .ok ([([97], Value.byte 2)], []) := read_compound_entries_end e8 e9
      exact read_compound_entries_step e5 e2 (by decide) e6 e7 hend
    have hstep1 : read_compound_entries .big [] [1, 0, 1, 97, 1, 1, 0, 1, 97, 2, 0]
        = .ok ([([97], Value.byte 2)], []) :=
      read_compound_entries_step e1 e2 (by decide) e3 e4 hstep2
    exact read_compound_ok hstep1

/-- C6, witness: the insertion half at the empty compound, key `"a"`. -/
theorem c6_witness :
    ∃ m1 m2, (Value.compound []).insert [97] (Value.byte 1) = .ok (.compound m1) ∧
      (Value.compound m1).insert [97] (Value.byte 2) = .ok (.compound m2) ∧
      countKey [97] m2 = 1 ∧ lookupKey [97] m2 = some (Value.byte 2) :=
  c6_compound_key_uniqueness.1 [] [97] (Value.byte 1) (Value.byte 2) rfl

/-! ## Claim C7 -/

/-- C7: name/absence conflation.  For every value, writing with no name
and writing with the explicitly empty name produce identical results
(byte-for-byte when they succeed), and for every valid value, reading the
produced bytes returns the name as `None`. -/
theorem c7_empty_name_sentinel (e : Endian) (v : Value) :
    write_tag e none v = write_tag e (some []) v ∧
    (valid v = true → ∃ bs, write_tag e none v = .ok bs ∧
      ∀ rest, read_tag e (bs ++ rest) = .ok ((none, v), rest)) := by
  constructor
  · rfl
  · intro hv
    exact write_read_tag e none v hv rfl

/-- C7, witness: at the value `Byte 1`, big-endian. -/
theorem c7_witness :
    (write_tag .big none (Value.byte 1) = write_tag .big (some []) (Value.byte 1)) ∧
    ∃ bs, write_tag .big none (Value.byte 1) = .ok bs ∧
      ∀ rest, read_tag .big (bs ++ rest) = .ok ((none, Value.byte 1), rest) :=
  ⟨(c7_empty_name_sentinel .big (Value.byte 1)).1,
    (c7_empty_name_sentinel .big (Value.byte 1)).2 (by norm_num)⟩

/-! ## Claim C8 -/

/-- C8: structural writes on the wrong kind.  For every value that is not
a list, `write_list` fails with `InvalidTagID` carrying the value's own
discriminant; for every value that is not a compound, `write_compound`
fails the same way.  In this pure model an error result carries no output
bytes, matching the source, where both checks precede every write. -/
theorem c8_wrong_kind (e : Endian) (v : Value) :
    (v.tag ≠ .list → write_list e v = .error (.invalidTagID v.tag.toU8)) ∧
    (v.tag ≠ .compound → write_compound e v = .error (.invalidTagID v.tag.toU8)) :=
  ⟨fun h => write_list_not_list e v h, fun h => write_compound_not_compound e v h⟩

/-- C8, witness: at the value `Byte 0`. -/
theorem c8_witness :
    write_list .big (Value.byte 0) = .error (.invalidTagID (Value.byte 0).tag.toU8) ∧
    write_compound .big (Value.byte 0)
      = .error (.invalidTagID (Value.byte 0).tag.toU8) :=
  ⟨(c8_wrong_kind .big (Value.byte 0)).1 (by decide),
    (c8_wrong_kind .big (Value.byte 0)).2 (by decide)⟩


/-! ## Claim C9 -/

/-- C9: `write_string` never fails on string length.  In this embedding
`write_string` is a total function into a byte list (the source's only
failure path is channel I/O): for every byte string `s`, including those
longer than 65535 bytes, it emits a 2-byte prefix that decodes (in the
configured order) to `s.length % 65536` — the `len() as u16` truncation —
followed by all of `s`'s bytes. -/
theorem c9_write_string_total (e : Endian) (s : List Nat) :
    ∃ pre, write_string e s = pre ++ s ∧ pre.length = 2 ∧
      bytesToNat e pre = s.length % 65536 := by
  refine ⟨write_u16 e s.length, rfl, natToBytes_length 2 e _, ?_⟩
  have h := bytesToNat_natToBytes 2 e s.length
  norm_num at h
  exact h

/-! ## Claim C10 -/

theorem write_i8_zero (e : Endian) : write_i8 e 0 = [0] := by
  cases e <;> rfl

theorem write_values_replicate_byte (e : Endian) :
    ∀ n : Nat, write_values e (List.replicate n (Value.byte 0))
      = .ok (List.replicate n 0) := by
  intro n
  induction n with
  | zero => rw [List.replicate_zero, write_values_nil, List.replicate_zero]
  | succ m ih =>
    rw [List.replicate_succ, write_values_cons, write_value_byte, ih, write_i8_zero,
      List.replicate_succ]
    rfl

/-- C10: `write_list` performs no upper bound check on list length.  The
homogeneous list of 32768 `Byte 0` values encodes successfully — element
tag byte `1`, the full count 32768, and all 32768 payload bytes — yet
`read_list` rejects the very bytes `write_list` produced, with the
invalid-length failure carrying count 32768: encode accepts list lengths
that decode refuses. -/
theorem c10_overlong_list_asymmetry :
    write_list .big (.list (List.replicate 32768 (Value.byte 0)))
      = .ok (write_i8 .big 1 ++ write_i32 .big 32768 ++ List.replicate 32768 0) ∧
    read_list .big (write_i8 .big 1 ++ write_i32 .big 32768 ++ List.replicate 32768 0)
      = .error (.invalidStringLength 32768) ∧
    homogeneous (List.replicate 32768 (Value.byte 0)) = true ∧
    (List.replicate 32768 (Value.byte 0)).length = 32768 := by
  have hrep : List.replicate 32768 (Value.byte 0)
      = Value.byte 0 :: List.replicate 32767 (Value.byte 0) := List.replicate_succ _ _
  have htags : ∀ y ∈ List.replicate 32768 (Value.byte 0), y.tag = (Value.byte 0).tag := by
    intro y hy
    rw [List.eq_of_mem_replicate hy]
  refine ⟨?_, ?_, ?_, List.length_replicate 32768 _⟩
  · rw [hrep, write_list_cons]
    rw [firstMismatch_none (Value.byte 0).tag _ (by rw [← hrep]; exact htags) 0]
    rw [← hrep, write_values_replicate_byte .big 32768]
    rw [show ((List.replicate 32768 (Value.byte 0)).length : Int) = (32768 : Int) by
      rw [List.length_replicate]; norm_num]
    rfl
  · have hx2 : Tag.tryFrom (intCastU8 1) = .ok .byte := rfl
    have hcast : intCastUsize (32768 : Int) = 32768 := by decide
    rw [List.append_assoc]
    rw [read_list_err (read_i8_write .big 1 _ (by norm_num) (by norm_num)) hx2
      (read_i32_write .big 32768 _ (by norm_num) (by norm_num))
      (Or.inr (by norm_num)), hcast]
  · rw [hrep]
    exact homogeneous_of_forall (by rw [← hrep]; exact htags)

end BNBT
